import Mathlib

/-!
Shallow embedding of the geometry pipeline in `Source/Core/GeometryPipeline.js`
(the mesh-transformation core of the repository), together with theorems that
settle the specification claims about it.

Modelling conventions:
* JavaScript numbers used as vertex-attribute components are modelled as `ℚ`
  (the claims under study never depend on floating-point rounding).
* A JavaScript value that may be `undefined` is modelled as an `Option`.
* A thrown `DeveloperError` is modelled as `Except.error` with the message text.
* JavaScript object property maps (the attribute bags) are modelled as ordered
  association lists `List (String × GeometryAttribute)`; JS objects iterate
  their own properties in insertion order, which the list order mirrors.
* `boundingSphere` is elided from the `Geometry` model: no claim mentions it and
  it interacts with no other field of any modelled function.
-/

/-- Primitive topology enum, as in `PrimitiveType.js` (listed in the spec §3). -/
inductive PrimitiveType where
  | POINTS
  | LINES
  | LINE_STRIP
  | LINE_LOOP
  | TRIANGLES
  | TRIANGLE_STRIP
  | TRIANGLE_FAN
deriving DecidableEq, Repr

/-- Component datatype enum (`ComponentDatatype.js`); only identity of the tag
matters to the modelled functions, which compare it for schema equality. -/
inductive ComponentDatatype where
  | FLOAT
  | UNSIGNED_SHORT
deriving DecidableEq, Repr

/-- One named vertex-attribute record, as in `GeometryAttribute.js`:
component datatype, components per vertex, normalization flag, and the flat
value array (`none` models a JS `undefined` values field). -/
structure GeometryAttribute where
  componentDatatype : ComponentDatatype
  componentsPerAttribute : Nat
  normalize : Bool
  values : Option (List ℚ)
deriving DecidableEq, Repr

/-- A geometry: ordered attribute map, optional index list, primitive topology
(`Geometry.js`).  The optional bounding sphere is elided (see file header). -/
structure Geometry where
  attributes : List (String × GeometryAttribute)
  indexList : Option (List Nat)
  primitiveType : PrimitiveType
deriving DecidableEq, Repr

/-- A model matrix: the 16 entries of a `Matrix4`, compared componentwise
(`Matrix4.equals`). -/
abbrev Matrix4 := List ℚ

/-- A geometry instance: a geometry plus its model transform. -/
structure GeometryInstance where
  geometry : Geometry
  modelMatrix : Matrix4
deriving DecidableEq, Repr

/-- Lookup of an attribute by name in the ordered attribute map
(models the JS property access `geometry.attributes[name]`). -/
def attrLookup (attrs : List (String × GeometryAttribute)) (name : String) :
    Option GeometryAttribute :=
  (attrs.find? (fun p => p.1 = name)).map Prod.snd

/-- Modelled from the spec: `Geometry.computeNumberOfVertices` lives in
`Geometry.js`, which is not under `src/`.  Spec §4.2: "Mesh with N vertices
(attribute length / components)", with the §3 invariant that every attribute of
a mesh has the same vertex count.  We return the count of the first attribute
that carries a value array, `0` when there is none. -/
def computeNumberOfVertices (g : Geometry) : Nat :=
  match g.attributes.find? (fun p => p.2.values.isSome) with
  | some p => (p.2.values.getD []).length / p.2.componentsPerAttribute
  | none => 0

/-! ### toWireframe (`GeometryPipeline.toWireframe`, lines 44–134) -/

/-- `addTriangle`: push the three edges of one triangle onto the line list. -/
def addTriangle (lines : List Nat) (i0 i1 i2 : Nat) : List Nat :=
  lines ++ [i0, i1, i1, i2, i2, i0]

/-- `trianglesToLines`: walk the index list three at a time.  A trailing
fragment of one or two indices (malformed input) would make the JS loop emit
edges containing `undefined`; that corner is not modelled — no claim reaches
it, and the §3 invariant forbids it. -/
def trianglesToLines : List Nat → List Nat
  | i0 :: i1 :: i2 :: rest => addTriangle [] i0 i1 i2 ++ trianglesToLines rest
  | _ => []

/-- `triangleStripToLines`: first triangle from the first three indices, then
one triangle `(t[i-1], t[i], t[i-2])` per further index. -/
def triangleStripToLines (triangles : List Nat) : List Nat :=
  if triangles.length ≥ 3 then
    (List.range (triangles.length - 3)).foldl
      (fun lines k =>
        addTriangle lines (triangles.getD (k + 2) 0) (triangles.getD (k + 3) 0)
          (triangles.getD (k + 1) 0))
      (addTriangle [] (triangles.getD 0 0) (triangles.getD 1 0) (triangles.getD 2 0))
  else []

/-- `triangleFanToLines`: triangles `(t[0], t[i], t[i+1])` for
`1 ≤ i < length - 1`. -/
def triangleFanToLines (triangles : List Nat) : List Nat :=
  match triangles with
  | [] => []
  | base :: rest =>
    (List.range (rest.length - 1)).foldl
      (fun lines i => addTriangle lines base (rest.getD i 0) (rest.getD (i + 1) 0)) []

/-- `GeometryPipeline.toWireframe`: when an index list is present, the switch
rewrites triangle-topology index lists to edge lists and — unconditionally,
also when no switch case matched — sets `primitiveType` to `LINES`. -/
def toWireframe (g : Geometry) : Geometry :=
  match g.indexList with
  | none => g
  | some indices =>
    let newIndices :=
      match g.primitiveType with
      | PrimitiveType.TRIANGLES => trianglesToLines indices
      | PrimitiveType.TRIANGLE_STRIP => triangleStripToLines indices
      | PrimitiveType.TRIANGLE_FAN => triangleFanToLines indices
      | _ => indices
    { g with indexList := some newIndices, primitiveType := PrimitiveType.LINES }

/-! ### reorderForPostVertexCache (`GeometryPipeline.reorderForPostVertexCache`,
lines 276–298).  `Tipsify.tipsify` lives in `Tipsify.js`, which is not under
`src/`; the claims about this function hold for every possible result of the
tipsify call, so it is taken as an arbitrary function parameter
`(indices, maximumIndex, cacheSize) ↦ new indices`. -/

/-- `GeometryPipeline.reorderForPostVertexCache`: when the topology is
`TRIANGLES` and an index list exists, compute the maximum index and replace the
index list by the tipsify result; otherwise the geometry passes through. -/
def reorderForPostVertexCache (tipsify : List Nat → Nat → Option Nat → List Nat)
    (g : Geometry) (cacheCapacity : Option Nat) : Geometry :=
  match g.indexList with
  | some indices =>
    if g.primitiveType = PrimitiveType.TRIANGLES then
      let maximumIndex := indices.foldl (fun m j => if j > m then j else m) 0
      { g with indexList := some (tipsify indices maximumIndex cacheCapacity) }
    else g
  | none => g

/-- Example geometry for the `toWireframe` claim: POINTS topology with an index
list. -/
def pointsWithIndices : Geometry :=
  { attributes := [("position",
      { componentDatatype := ComponentDatatype.FLOAT
        componentsPerAttribute := 3
        normalize := false
        values := some [0, 0, 0] })]
    indexList := some [0]
    primitiveType := PrimitiveType.POINTS }

/-- C4: the claim says a non-triangle-topology geometry is returned unchanged by
`toWireframe`, with or without an index list.  The code contradicts this (and
its own doc comment): for a POINTS geometry with an index list the index list
survives but the primitive topology is overwritten to LINES, because the
assignment `geometry.primitiveType = PrimitiveType.LINES` sits outside the
switch and runs whenever an index list exists. -/
theorem toWireframe_points_with_indices_changed :
    (toWireframe pointsWithIndices).primitiveType = PrimitiveType.LINES ∧
    (toWireframe pointsWithIndices).indexList = pointsWithIndices.indexList ∧
    pointsWithIndices.primitiveType = PrimitiveType.POINTS ∧
    toWireframe pointsWithIndices ≠ pointsWithIndices := by
  refine ⟨rfl, rfl, rfl, ?_⟩
  decide

/-- C9: `reorderForPostVertexCache` never touches the attributes — for every
tipsify behaviour, every cache capacity and every geometry the attribute map of
the result is the input's — and when the topology is not `TRIANGLES`, or there
is no index list, the whole geometry is returned unchanged. -/
theorem reorderForPostVertexCache_attributes_untouched
    (tipsify : List Nat → Nat → Option Nat → List Nat) (cc : Option Nat)
    (g : Geometry) :
    (reorderForPostVertexCache tipsify g cc).attributes = g.attributes ∧
    (g.primitiveType ≠ PrimitiveType.TRIANGLES ∨ g.indexList = none →
      reorderForPostVertexCache tipsify g cc = g) := by
  constructor
  · unfold reorderForPostVertexCache
    cases h : g.indexList with
    | none => rfl
    | some ind =>
      by_cases ht : g.primitiveType = PrimitiveType.TRIANGLES <;> simp [ht]
  · intro h
    unfold reorderForPostVertexCache
    cases hi : g.indexList with
    | none => rfl
    | some ind =>
      rcases h with h | h
      · simp [h]
      · exact absurd hi (by simp [h])

/-- Witness for C9 at a concrete input: the LINES geometry with an index list
passes through an arbitrary concrete tipsify unchanged. -/
theorem reorderForPostVertexCache_attributes_untouched_witness :
    (reorderForPostVertexCache (fun l _ _ => l.reverse)
        { attributes := [], indexList := some [0, 1], primitiveType := PrimitiveType.LINES }
        (some 24)).attributes = [] ∧
    reorderForPostVertexCache (fun l _ _ => l.reverse)
        { attributes := [], indexList := some [0, 1], primitiveType := PrimitiveType.LINES }
        (some 24) =
      { attributes := [], indexList := some [0, 1], primitiveType := PrimitiveType.LINES } := by
  have h := reorderForPostVertexCache_attributes_untouched (fun l _ _ => l.reverse) (some 24)
    { attributes := [], indexList := some [0, 1], primitiveType := PrimitiveType.LINES }
  exact ⟨h.1, h.2 (Or.inl (by decide))⟩


/-! ### reorderForPreVertexCache (`GeometryPipeline.reorderForPreVertexCache`,
lines 191–253) -/

/-- State of the single scan over the index list: the old→new cross-reference
array (length `numVertices`, entries initialized to `-1`), the output index
list (entries are `Option Int` because the JS code can store an `undefined`
read back into the output, see `reorderStep`), and the monotonic counter. -/
structure ReorderState where
  crossRef : List Int
  indicesOut : List (Option Int)
  nextIndex : Int
deriving Repr

/-- One loop iteration of the index scan.  `tempIndex` is the JS read
`indexCrossReferenceOldToNew[indicesIn[intoIndicesIn]]`: for an index at or
beyond `numVertices` the read is out of range and yields `undefined` (`none`),
which is `!== -1`, so the first branch stores that `undefined` into the output.
Only when the slot holds `-1` does the else branch run, where the guard
`tempIndex >= numVertices` (the thrown `DeveloperError`) is checked before the
slot is assigned the next sequential new index. -/
def reorderStep (numVertices : Nat) (s : ReorderState) (x : Nat) :
    Except String ReorderState :=
  let tempIndex := s.crossRef.get? x
  if tempIndex ≠ some (-1) then
    Except.ok { s with indicesOut := s.indicesOut ++ [tempIndex] }
  else
    if (x : Int) ≥ (numVertices : Int) then
      Except.error "Each attribute array in geometry.attributes must have the same number of attributes."
    else
      Except.ok
        { crossRef := s.crossRef.set x s.nextIndex
          indicesOut := s.indicesOut ++ [some s.nextIndex]
          nextIndex := s.nextIndex + 1 }

/-- The full index scan: fold `reorderStep` over the input index list starting
from the all-`-1` cross reference.  Returns the final cross reference and the
output index list. -/
def reorderIndices (numVertices : Nat) (indicesIn : List Nat) :
    Except String (List Int × List (Option Int)) := do
  let s ← indicesIn.foldlM (reorderStep numVertices)
    { crossRef := List.replicate numVertices (-1)
      indicesOut := []
      nextIndex := 0 }
  return (s.crossRef, s.indicesOut)

/-- Model of a JS array being filled by indexed assignment: current `length`
and the entries written so far.  Assignment at a negative position creates a
non-element property (it does not extend `length` and is invisible to the
materialized array); assignment at a non-negative position extends `length` to
cover it. -/
structure JSWriteArr where
  len : Nat
  entry : Int → Option ℚ

/-- The empty JS array `[]`. -/
def JSWriteArr.empty : JSWriteArr := ⟨0, fun _ => none⟩

/-- Indexed assignment `a[pos] = v`. -/
def JSWriteArr.set (a : JSWriteArr) (pos : Int) (v : ℚ) : JSWriteArr :=
  { len := if 0 ≤ pos then max a.len (pos.toNat + 1) else a.len
    entry := fun p => if p = pos then some v else a.entry p }

/-- Materialize the written array as a dense list.  A hole (a slot below
`length` that was never assigned) is a JS `undefined`; it is materialized as
`0` here — every claim use proves that the slots read were in fact written. -/
def JSWriteArr.toList (a : JSWriteArr) : List ℚ :=
  (List.range a.len).map (fun (p : Nat) => (a.entry (p : Int)).getD 0)

/-- One old-vertex step of the attribute-permutation loop: write the
`numComponents` components of old block `i` to positions
`numComponents * crossRef[i] + c` of the output array. -/
def permuteBlock (crossRef : List Int) (numComponents : Nat) (elementsIn : List ℚ)
    (a : JSWriteArr) (i : Nat) : JSWriteArr :=
  (List.range numComponents).foldl
    (fun (b : JSWriteArr) (c : Nat) =>
      JSWriteArr.set b ((numComponents : Int) * crossRef.getD i (-1) + (c : Int))
        (elementsIn.getD (numComponents * i + c) 0))
    a

/-- The attribute-permutation loop of `reorderForPreVertexCache`: for each old
vertex `i` below `numVertices`, write old block `i` at new block
`crossRef[i]`.  For an unassigned vertex (`crossRef[i] = -1`) all the written
positions are negative, so the block is dropped from the materialized array,
exactly as in JS.  Reads of `elementsIn` are in range whenever the attribute
has the §3-invariant length `numComponents * numVertices` (an out-of-range read
would be a JS `undefined`; modelled by the `getD 0` default, unreachable in
every claim use). -/
def permuteValues (crossRef : List Int) (numVertices numComponents : Nat)
    (elementsIn : List ℚ) : List ℚ :=
  ((List.range numVertices).foldl (permuteBlock crossRef numComponents elementsIn)
    JSWriteArr.empty).toList

/-- `GeometryPipeline.reorderForPreVertexCache`: scan the index list building
the old→new cross reference (when an index list exists), then permute every
attribute's value blocks through that cross reference.  When there is no index
list the attribute permutation still runs with the all-`-1` cross reference.
The output index list entries are known to be defined non-negative values
whenever every input index is below `numVertices` (proved separately); the JS
array is reproduced here through that mapping, an `undefined` entry (only
possible for out-of-range input indices) degenerating to `0`. -/
def reorderForPreVertexCache (g : Geometry) : Except String Geometry :=
  ((match g.indexList with
    | some indicesIn =>
      (reorderIndices (computeNumberOfVertices g) indicesIn).map
        (fun r => (r.1, some (r.2.map (fun o => (o.getD (-1)).toNat))))
    | none =>
      Except.ok (List.replicate (computeNumberOfVertices g) (-1), none)) :
    Except String (List Int × Option (List Nat))).map
    (fun pr =>
      { g with
          attributes := g.attributes.map (fun p =>
            match p.2.values with
            | some elementsIn =>
              (p.1, { p.2 with
                      values := some (permuteValues pr.1 (computeNumberOfVertices g)
                        p.2.componentsPerAttribute elementsIn) })
            | none => p)
          indexList := pr.2 })

/-! ### First-reference order: functional characterisation of the index scan -/

/-- The distinct values of `l`, in order of first occurrence. -/
def firstOccur (l : List Nat) : List Nat :=
  l.foldl (fun acc x => if x ∈ acc then acc else acc ++ [x]) []

/-- The rank of the first occurrence of `x` in `l`: the number the scan of
`reorderForPreVertexCache` assigns to old vertex `x`. -/
def firstRefRank (l : List Nat) (x : Nat) : Nat :=
  (firstOccur l).indexOf x

theorem foldl_firstOccur_mem (l : List Nat) (acc : List Nat) (y : Nat) :
    y ∈ l.foldl (fun acc x => if x ∈ acc then acc else acc ++ [x]) acc ↔
      y ∈ acc ∨ y ∈ l := by
  induction l generalizing acc with
  | nil => simp
  | cons x rest ih =>
    simp only [List.foldl_cons, List.mem_cons]
    by_cases hx : x ∈ acc
    · rw [if_pos hx, ih]
      constructor
      · rintro (h | h)
        · exact Or.inl h
        · exact Or.inr (Or.inr h)
      · rintro (h | h | h)
        · exact Or.inl h
        · exact Or.inl (h ▸ hx)
        · exact Or.inr h
    · rw [if_neg hx, ih]
      simp only [List.mem_append, List.mem_singleton]
      tauto

theorem mem_firstOccur (l : List Nat) (y : Nat) : y ∈ firstOccur l ↔ y ∈ l := by
  simpa using foldl_firstOccur_mem l [] y

theorem foldl_firstOccur_nodup (l : List Nat) (acc : List Nat) (h : acc.Nodup) :
    (l.foldl (fun acc x => if x ∈ acc then acc else acc ++ [x]) acc).Nodup := by
  induction l generalizing acc with
  | nil => simpa
  | cons x rest ih =>
    simp only [List.foldl_cons]
    by_cases hx : x ∈ acc
    · simpa [hx] using ih acc h
    · refine if_neg hx ▸ ih (acc ++ [x]) ?_
      simpa [List.nodup_append, hx] using h

theorem nodup_firstOccur (l : List Nat) : (firstOccur l).Nodup :=
  foldl_firstOccur_nodup l [] List.nodup_nil

theorem foldl_firstOccur_prefix (l : List Nat) (acc : List Nat) :
    ∃ r, l.foldl (fun acc x => if x ∈ acc then acc else acc ++ [x]) acc = acc ++ r := by
  induction l generalizing acc with
  | nil => exact ⟨[], by simp⟩
  | cons x rest ih =>
    simp only [List.foldl_cons]
    by_cases hx : x ∈ acc
    · simpa [hx] using ih acc
    · obtain ⟨r, hr⟩ := ih (acc ++ [x])
      exact ⟨x :: r, by simpa [hx] using hr⟩

theorem firstOccur_append (p q : List Nat) :
    ∃ r, firstOccur (p ++ q) = firstOccur p ++ r := by
  unfold firstOccur
  rw [List.foldl_append]
  exact foldl_firstOccur_prefix q _

/-- Stability: once `x` has occurred, its rank no longer changes as the list
grows. -/
theorem firstRefRank_stable (p q : List Nat) (x : Nat) (hx : x ∈ p) :
    firstRefRank (p ++ q) x = firstRefRank p x := by
  obtain ⟨r, hr⟩ := firstOccur_append p q
  unfold firstRefRank
  rw [hr, List.indexOf_append_of_mem ((mem_firstOccur p x).mpr hx)]

theorem firstOccur_append_singleton_mem (p : List Nat) (x : Nat) (hx : x ∈ p) :
    firstOccur (p ++ [x]) = firstOccur p := by
  unfold firstOccur
  rw [List.foldl_append]
  simp only [List.foldl_cons, List.foldl_nil]
  exact if_pos ((mem_firstOccur p x).mpr hx)

theorem firstOccur_append_singleton_not_mem (p : List Nat) (x : Nat) (hx : x ∉ p) :
    firstOccur (p ++ [x]) = firstOccur p ++ [x] := by
  unfold firstOccur
  rw [List.foldl_append]
  simp only [List.foldl_cons, List.foldl_nil]
  exact if_neg (fun h => hx ((mem_firstOccur p x).mp h))

/-- A fresh value's rank is the number of distinct values seen before it. -/
theorem firstRefRank_fresh (p : List Nat) (x : Nat) (hx : x ∉ p) :
    firstRefRank (p ++ [x]) x = (firstOccur p).length := by
  unfold firstRefRank
  rw [firstOccur_append_singleton_not_mem p x hx,
    List.indexOf_append_of_not_mem (fun h => hx ((mem_firstOccur p x).mp h))]
  simp

/-- The cross-reference array after scanning `p`, over `nv` vertices. -/
def crossRefOf (nv : Nat) (p : List Nat) : List Int :=
  (List.range nv).map (fun i => if i ∈ p then ((firstRefRank p i : Nat) : Int) else -1)

/-- The output index list after scanning `p` (all entries defined when every
index of `p` is in range). -/
def outOf (p : List Nat) : List (Option Int) :=
  p.map (fun x => some ((firstRefRank p x : Nat) : Int))

/-- The whole scan state after processing prefix `p`. -/
def stateOf (nv : Nat) (p : List Nat) : ReorderState :=
  { crossRef := crossRefOf nv p
    indicesOut := outOf p
    nextIndex := ((firstOccur p).length : Int) }

theorem length_crossRefOf (nv : Nat) (p : List Nat) : (crossRefOf nv p).length = nv := by
  unfold crossRefOf
  simp

theorem crossRefOf_get? (nv : Nat) (p : List Nat) (i : Nat) (h : i < nv) :
    (crossRefOf nv p).get? i =
      some (if i ∈ p then ((firstRefRank p i : Nat) : Int) else -1) := by
  unfold crossRefOf
  rw [List.get?_eq_getElem?, List.getElem?_map, List.getElem?_range h]
  rfl

theorem crossRefOf_append_mem (nv : Nat) (p : List Nat) (x : Nat) (hx : x ∈ p) :
    crossRefOf nv (p ++ [x]) = crossRefOf nv p := by
  unfold crossRefOf
  refine List.map_congr_left (fun i _ => ?_)
  by_cases hip : i ∈ p
  · rw [if_pos (List.mem_append_left _ hip), if_pos hip, firstRefRank_stable p [x] i hip]
  · rw [if_neg ?_, if_neg hip]
    intro hmem
    rcases List.mem_append.mp hmem with h | h
    · exact hip h
    · exact hip (by rwa [List.mem_singleton.mp h])

theorem outOf_append (p : List Nat) (x : Nat) :
    outOf (p ++ [x]) = outOf p ++ [some ((firstRefRank (p ++ [x]) x : Nat) : Int)] := by
  unfold outOf
  rw [List.map_append]
  congr 1
  exact List.map_congr_left (fun y hy => by rw [firstRefRank_stable p [x] y hy])

theorem crossRefOf_append_not_mem (nv : Nat) (p : List Nat) (x : Nat) (hx : x ∉ p)
    (hxnv : x < nv) :
    (crossRefOf nv p).set x ((firstOccur p).length : Int) = crossRefOf nv (p ++ [x]) := by
  apply List.ext_get?_iff.mpr
  intro n
  by_cases hn : n < nv
  · by_cases hnx : n = x
    · subst hnx
      rw [List.get?_set_eq_of_lt _ (by rw [length_crossRefOf]; exact hn),
        crossRefOf_get? nv (p ++ [n]) n hn,
        if_pos (List.mem_append_right _ (List.mem_singleton_self n)),
        firstRefRank_fresh p n hx]
    · rw [List.get?_set_ne _ _ (fun h => hnx h.symm), crossRefOf_get? nv p n hn,
        crossRefOf_get? nv (p ++ [x]) n hn]
      by_cases hnp : n ∈ p
      · rw [if_pos hnp, if_pos (List.mem_append_left _ hnp),
          firstRefRank_stable p [x] n hnp]
      · rw [if_neg hnp, if_neg ?_]
        intro hmem
        rcases List.mem_append.mp hmem with h | h
        · exact hnp h
        · exact hnx (List.mem_singleton.mp h)
  · rw [List.get?_eq_none.mpr, List.get?_eq_none.mpr]
    · rw [length_crossRefOf]; omega
    · rw [List.length_set, length_crossRefOf]; omega

theorem reorderStep_ok (nv : Nat) (p : List Nat) (x : Nat) (hxnv : x < nv) :
    reorderStep nv (stateOf nv p) x = Except.ok (stateOf nv (p ++ [x])) := by
  have hcr : (stateOf nv p).crossRef = crossRefOf nv p := rfl
  by_cases hx : x ∈ p
  · have hget : (stateOf nv p).crossRef.get? x = some ((firstRefRank p x : Nat) : Int) := by
      rw [hcr, crossRefOf_get? nv p x hxnv, if_pos hx]
    unfold reorderStep
    rw [hget, if_pos (by intro h; injection h with h; omega)]
    have h1 : crossRefOf nv (p ++ [x]) = crossRefOf nv p := crossRefOf_append_mem nv p x hx
    have h2 : outOf (p ++ [x]) = outOf p ++ [some ((firstRefRank p x : Nat) : Int)] := by
      rw [outOf_append p x, firstRefRank_stable p [x] x hx]
    have h3 : firstOccur (p ++ [x]) = firstOccur p := firstOccur_append_singleton_mem p x hx
    unfold stateOf
    rw [h1, h2, h3]
  · have hget : (stateOf nv p).crossRef.get? x = some (-1) := by
      rw [hcr, crossRefOf_get? nv p x hxnv, if_neg hx]
    unfold reorderStep
    rw [hget, if_neg (by simp), if_neg (by push_neg; exact_mod_cast hxnv)]
    have h1 : (stateOf nv p).crossRef.set x (stateOf nv p).nextIndex =
        crossRefOf nv (p ++ [x]) := by
      rw [hcr]
      exact crossRefOf_append_not_mem nv p x hx hxnv
    have h2 : outOf (p ++ [x]) = outOf p ++ [some ((firstOccur p).length : Int)] := by
      rw [outOf_append p x, firstRefRank_fresh p x hx]
    have h3 : firstOccur (p ++ [x]) = firstOccur p ++ [x] :=
      firstOccur_append_singleton_not_mem p x hx
    rw [h1]
    unfold stateOf
    rw [h2, h3]
    simp

theorem scan_invariant (nv : Nat) (l : List Nat) :
    ∀ p : List Nat, (∀ x ∈ l, x < nv) →
    l.foldlM (reorderStep nv) (stateOf nv p) = Except.ok (stateOf nv (p ++ l)) := by
  induction l with
  | nil => intro p _; rw [List.append_nil]; rfl
  | cons x rest ih =>
    intro p hlt
    have hx : x < nv := hlt x (List.mem_cons_self x rest)
    rw [List.foldlM_cons, reorderStep_ok nv p x hx]
    have := ih (p ++ [x]) (fun y hy => hlt y (List.mem_cons_of_mem x hy))
    rw [List.append_assoc, List.singleton_append] at this
    exact this

theorem stateOf_nil (nv : Nat) :
    stateOf nv [] =
      { crossRef := List.replicate nv (-1), indicesOut := [], nextIndex := 0 } := by
  unfold stateOf crossRefOf outOf
  simp [firstOccur, List.map_const']

theorem reorderIndices_eq (nv : Nat) (ind : List Nat) (h : ∀ x ∈ ind, x < nv) :
    reorderIndices nv ind = Except.ok (crossRefOf nv ind, outOf ind) := by
  unfold reorderIndices
  rw [← stateOf_nil nv, scan_invariant nv ind [] h, List.nil_append]
  rfl

/-! ### Correctness of the attribute permutation -/

/-- The (position, value) pairs written for old vertex `i` by `permuteBlock`. -/
def writeList (crossRef : List Int) (numComponents : Nat) (elementsIn : List ℚ)
    (i : Nat) : List (Int × ℚ) :=
  (List.range numComponents).map (fun (c : Nat) =>
    ((numComponents : Int) * crossRef.getD i (-1) + (c : Int),
      elementsIn.getD (numComponents * i + c) 0))

/-- All (position, value) pairs written by the permutation loop, in order. -/
def allWrites (crossRef : List Int) (numVertices numComponents : Nat)
    (elementsIn : List ℚ) : List (Int × ℚ) :=
  (List.range numVertices).flatMap (writeList crossRef numComponents elementsIn)

/-- Replaying a list of writes on a JS array. -/
def setsFold (L : List (Int × ℚ)) (a : JSWriteArr) : JSWriteArr :=
  L.foldl (fun b pv => JSWriteArr.set b pv.1 pv.2) a

theorem permuteBlock_eq (crossRef : List Int) (numComponents : Nat)
    (elementsIn : List ℚ) (a : JSWriteArr) (i : Nat) :
    permuteBlock crossRef numComponents elementsIn a i =
      setsFold (writeList crossRef numComponents elementsIn i) a := by
  unfold permuteBlock writeList setsFold
  rw [List.foldl_map]

theorem setsFold_append (L1 L2 : List (Int × ℚ)) (a : JSWriteArr) :
    setsFold (L1 ++ L2) a = setsFold L2 (setsFold L1 a) := by
  unfold setsFold
  rw [List.foldl_append]

theorem permuteValues_eq (crossRef : List Int) (numVertices numComponents : Nat)
    (elementsIn : List ℚ) :
    permuteValues crossRef numVertices numComponents elementsIn =
      (setsFold (allWrites crossRef numVertices numComponents elementsIn)
        JSWriteArr.empty).toList := by
  unfold permuteValues allWrites
  congr 1
  generalize JSWriteArr.empty = a
  induction (List.range numVertices) generalizing a with
  | nil => rfl
  | cons x rest ih =>
    rw [List.foldl_cons, List.flatMap_cons, setsFold_append, ih, permuteBlock_eq]

theorem JSWriteArr.len_set_le (a : JSWriteArr) (pos : Int) (v : ℚ) :
    a.len ≤ (a.set pos v).len := by
  unfold JSWriteArr.set
  by_cases h : 0 ≤ pos <;> simp [h]

theorem setsFold_len_mono (L : List (Int × ℚ)) (a : JSWriteArr) :
    a.len ≤ (setsFold L a).len := by
  induction L generalizing a with
  | nil => exact Nat.le_refl _
  | cons x rest ih =>
    exact Nat.le_trans (JSWriteArr.len_set_le a x.1 x.2) (ih _)

theorem setsFold_len_ge (L : List (Int × ℚ)) (a : JSWriteArr) (pos : Int) (v : ℚ)
    (hmem : (pos, v) ∈ L) (hpos : 0 ≤ pos) :
    pos.toNat + 1 ≤ (setsFold L a).len := by
  induction L generalizing a with
  | nil => cases hmem
  | cons x rest ih =>
    rcases List.mem_cons.mp hmem with h | h
    · have hset : pos.toNat + 1 ≤ (JSWriteArr.set a x.1 x.2).len := by
        rw [← h]
        unfold JSWriteArr.set
        simp [hpos]
      exact Nat.le_trans hset (setsFold_len_mono rest _)
    · exact ih _ h

theorem setsFold_entry_not_written (L : List (Int × ℚ)) (a : JSWriteArr) (pos : Int)
    (h : pos ∉ L.map Prod.fst) :
    (setsFold L a).entry pos = a.entry pos := by
  induction L generalizing a with
  | nil => rfl
  | cons x rest ih =>
    have hx : pos ≠ x.1 := fun he => h (by simp [he])
    have hrest : pos ∉ rest.map Prod.fst := fun hm => h (by simp [hm])
    rw [show setsFold (x :: rest) a = setsFold rest (JSWriteArr.set a x.1 x.2) from rfl,
      ih _ hrest]
    unfold JSWriteArr.set
    simp [hx]

theorem setsFold_entry_last_write (L1 L2 : List (Int × ℚ)) (a : JSWriteArr)
    (pos : Int) (v : ℚ) (h : pos ∉ L2.map Prod.fst) :
    (setsFold (L1 ++ (pos, v) :: L2) a).entry pos = some v := by
  rw [setsFold_append]
  rw [show setsFold ((pos, v) :: L2) (setsFold L1 a) =
    setsFold L2 (JSWriteArr.set (setsFold L1 a) pos v) from rfl]
  rw [setsFold_entry_not_written L2 _ pos h]
  unfold JSWriteArr.set
  simp

theorem JSWriteArr.toList_get? (a : JSWriteArr) (n : Nat) (h : n < a.len) :
    a.toList.get? n = some ((a.entry (n : Int)).getD 0) := by
  unfold JSWriteArr.toList
  rw [List.get?_eq_getElem?, List.getElem?_map, List.getElem?_range h]
  rfl

theorem block_pos_ne (m : Nat) (t1 t2 : Int) (c1 c2 : Nat)
    (h1 : c1 < m) (h2 : c2 < m) (hne : t1 ≠ t2) (hp1 : 0 ≤ t1) (hp2 : 0 ≤ t2) :
    (m : Int) * t1 + (c1 : Int) ≠ (m : Int) * t2 + (c2 : Int) := by
  have hc1 : (c1 : Int) < (m : Int) := by exact_mod_cast h1
  have hc2 : (c2 : Int) < (m : Int) := by exact_mod_cast h2
  have key : ∀ a b : Int, a < b → (m : Int) * a + (c1 : Int) ≠ (m : Int) * b + (c2 : Int) ∧
      (m : Int) * a + (c2 : Int) ≠ (m : Int) * b + (c1 : Int) := by
    intro a b hab
    have hstep : (m : Int) * (a + 1) ≤ (m : Int) * b :=
      mul_le_mul_of_nonneg_left (by omega) (by positivity)
    constructor <;> intro he <;> nlinarith [hstep]
  rcases lt_or_gt_of_ne hne with h | h
  · exact (key t1 t2 h).1
  · exact fun he => (key t2 t1 h).2 he.symm

theorem block_pos_neg (m : Nat) (t : Int) (c : Nat) (hc : c < m) (ht : t < 0) :
    (m : Int) * t + (c : Int) < 0 := by
  have hcm : (c : Int) < (m : Int) := by exact_mod_cast hc
  have h1 : (m : Int) * t ≤ (m : Int) * (-1) :=
    mul_le_mul_of_nonneg_left (by omega) (by positivity)
  linarith

theorem writeList_mem_fst (crossRef : List Int) (comps : Nat) (elemsIn : List ℚ)
    (i : Nat) (p : Int × ℚ) (hp : p ∈ writeList crossRef comps elemsIn i) :
    ∃ c' : Nat, c' < comps ∧ p.1 = (comps : Int) * crossRef.getD i (-1) + (c' : Int) := by
  unfold writeList at hp
  obtain ⟨c', hc', heq⟩ := List.mem_map.mp hp
  exact ⟨c', List.mem_range.mp hc', by rw [← heq]⟩

theorem permuteValues_get? (crossRef : List Int) (nv comps : Nat) (elemsIn : List ℚ)
    (hinj : ∀ i' j', i' < nv → j' < nv → 0 ≤ crossRef.getD i' (-1) →
      crossRef.getD i' (-1) = crossRef.getD j' (-1) → i' = j')
    (i : Nat) (hi : i < nv) (t : Nat) (ht : crossRef.getD i (-1) = (t : Int))
    (c : Nat) (hc : c < comps) :
    (permuteValues crossRef nv comps elemsIn).get? (comps * t + c) =
      some (elemsIn.getD (comps * i + c) 0) := by
  have hposcast : ((comps : Int) * (t : Int) + (c : Int)) = ((comps * t + c : Nat) : Int) := by
    push_cast
    ring
  obtain ⟨s, u, hsu⟩ := List.append_of_mem (List.mem_range.mpr hi)
  have hnd : (s ++ i :: u).Nodup := hsu ▸ List.nodup_range nv
  have hmemnv : ∀ y, y ∈ s ∨ y ∈ u → y < nv := by
    intro y hy
    have hmem : y ∈ List.range nv := by
      rw [hsu]
      rcases hy with h | h
      · exact List.mem_append_left _ h
      · exact List.mem_append_right _ (List.mem_cons_of_mem _ h)
    exact List.mem_range.mp hmem
  obtain ⟨s2, u2, hsu2⟩ := List.append_of_mem (List.mem_range.mpr hc)
  have hnd2 : (s2 ++ c :: u2).Nodup := hsu2 ▸ List.nodup_range comps
  have hcu2 : c ∉ u2 := (List.nodup_cons.mp (List.nodup_append.mp hnd2).2.1).1
  have hmemc : ∀ y, y ∈ u2 → y < comps := by
    intro y hy
    have hmem : y ∈ List.range comps := by
      rw [hsu2]
      exact List.mem_append_right _ (List.mem_cons_of_mem _ hy)
    exact List.mem_range.mp hmem
  have hw : writeList crossRef comps elemsIn i =
      List.map (fun (c' : Nat) =>
        ((comps : Int) * crossRef.getD i (-1) + (c' : Int),
          elemsIn.getD (comps * i + c') 0)) s2 ++
      ((comps : Int) * crossRef.getD i (-1) + (c : Int),
          elemsIn.getD (comps * i + c) 0) ::
      List.map (fun (c' : Nat) =>
        ((comps : Int) * crossRef.getD i (-1) + (c' : Int),
          elemsIn.getD (comps * i + c') 0)) u2 := by
    unfold writeList
    rw [hsu2, List.map_append, List.map_cons]
  have hAll : allWrites crossRef nv comps elemsIn =
      (s.flatMap (writeList crossRef comps elemsIn) ++
        List.map (fun (c' : Nat) =>
          ((comps : Int) * crossRef.getD i (-1) + (c' : Int),
            elemsIn.getD (comps * i + c') 0)) s2) ++
      (((comps : Int) * (t : Int) + (c : Int)), elemsIn.getD (comps * i + c) 0) ::
      (List.map (fun (c' : Nat) =>
          ((comps : Int) * crossRef.getD i (-1) + (c' : Int),
            elemsIn.getD (comps * i + c') 0)) u2 ++
        u.flatMap (writeList crossRef comps elemsIn)) := by
    unfold allWrites
    rw [hsu, List.flatMap_append, List.flatMap_cons, hw, ht]
    simp [List.append_assoc]
  have hnotin : ((comps : Int) * (t : Int) + (c : Int)) ∉
      (List.map (fun (c' : Nat) =>
          ((comps : Int) * crossRef.getD i (-1) + (c' : Int),
            elemsIn.getD (comps * i + c') 0)) u2 ++
        u.flatMap (writeList crossRef comps elemsIn)).map Prod.fst := by
    intro hmem
    rw [List.map_append] at hmem
    rcases List.mem_append.mp hmem with hmem | hmem
    · rw [List.map_map] at hmem
      obtain ⟨c', hc', heq⟩ := List.mem_map.mp hmem
      have heq2 : (comps : Int) * (t : Int) + (c' : Int) =
          (comps : Int) * (t : Int) + (c : Int) := by
        have : (comps : Int) * crossRef.getD i (-1) + (c' : Int) =
            (comps : Int) * (t : Int) + (c : Int) := heq
        rwa [ht] at this
      have hcc : c' = c := by exact_mod_cast add_left_cancel heq2
      exact hcu2 (hcc ▸ hc')
    · obtain ⟨p, hpmem, hpfst⟩ := List.mem_map.mp hmem
      obtain ⟨i', hi'u, hpw⟩ := List.mem_flatMap.mp hpmem
      obtain ⟨c'', hc''lt, hp1⟩ := writeList_mem_fst crossRef comps elemsIn i' p hpw
      have hi'nv : i' < nv := hmemnv i' (Or.inr hi'u)
      have hi'ne : i' ≠ i := by
        intro he
        have hiu : i ∉ u := (List.nodup_cons.mp (List.nodup_append.mp hnd).2.1).1
        exact hiu (he ▸ hi'u)
      by_cases hsign : 0 ≤ crossRef.getD i' (-1)
      · have hne : crossRef.getD i' (-1) ≠ (t : Int) := by
          intro he
          exact hi'ne (hinj i' i hi'nv hi hsign (he.trans ht.symm))
        have hblock := block_pos_ne comps (crossRef.getD i' (-1)) ((t : Int)) c'' c
          hc''lt hc hne hsign (by positivity)
        rw [hpfst] at hp1
        exact hblock hp1.symm
      · push_neg at hsign
        have hneg := block_pos_neg comps (crossRef.getD i' (-1)) c'' hc''lt hsign
        rw [hpfst] at hp1
        rw [← hp1] at hneg
        have hpos : (0 : Int) ≤ (comps : Int) * (t : Int) + (c : Int) := by positivity
        exact absurd hneg (not_lt.mpr hpos)
  rw [permuteValues_eq]
  have hmemall : (((comps : Int) * (t : Int) + (c : Int)),
      elemsIn.getD (comps * i + c) 0) ∈ allWrites crossRef nv comps elemsIn := by
    rw [hAll]
    exact List.mem_append_right _ (List.mem_cons_self _ _)
  have hlen : comps * t + c <
      (setsFold (allWrites crossRef nv comps elemsIn) JSWriteArr.empty).len := by
    have hge := setsFold_len_ge _ JSWriteArr.empty _ _ hmemall (by positivity)
    rw [hposcast, Int.toNat_natCast] at hge
    omega
  rw [JSWriteArr.toList_get? _ _ hlen]
  have hentry : (setsFold (allWrites crossRef nv comps elemsIn) JSWriteArr.empty).entry
      ((comps * t + c : Nat) : Int) = some (elemsIn.getD (comps * i + c) 0) := by
    rw [← hposcast, hAll]
    exact setsFold_entry_last_write _ _ _ _ _ hnotin
  rw [hentry]
  rfl

theorem crossRefOf_getD (nv : Nat) (p : List Nat) (i : Nat) (h : i < nv) :
    (crossRefOf nv p).getD i (-1) =
      if i ∈ p then ((firstRefRank p i : Nat) : Int) else -1 := by
  have hq := crossRefOf_get? nv p i h
  show ((crossRefOf nv p).get? i).getD (-1) = _
  rw [hq]
  rfl

theorem crossRefOf_inj (nv : Nat) (p : List Nat) :
    ∀ i j, i < nv → j < nv → 0 ≤ (crossRefOf nv p).getD i (-1) →
      (crossRefOf nv p).getD i (-1) = (crossRefOf nv p).getD j (-1) → i = j := by
  intro i j hi hj hpos heq
  rw [crossRefOf_getD nv p i hi] at hpos heq
  rw [crossRefOf_getD nv p j hj] at heq
  by_cases hip : i ∈ p
  · rw [if_pos hip] at heq
    by_cases hjp : j ∈ p
    · rw [if_pos hjp] at heq
      have hrk : firstRefRank p i = firstRefRank p j := by exact_mod_cast heq
      exact (List.indexOf_inj ((mem_firstOccur p i).mpr hip)
        ((mem_firstOccur p j).mpr hjp)).mp hrk
    · rw [if_neg hjp] at heq
      omega
  · rw [if_neg hip] at hpos
    omega

theorem find?_fst_map {α β γ : Type} [DecidableEq γ] (l : List (γ × α)) (f : γ × α → γ × β)
    (hf : ∀ p, (f p).1 = p.1) (name : γ) :
    (l.map f).find? (fun p => p.1 = name) = (l.find? (fun p => p.1 = name)).map f := by
  induction l with
  | nil => rfl
  | cons p rest ih =>
    by_cases hp : p.1 = name
    · have h1 : (f p).1 = name := by rw [hf p]; exact hp
      simp [List.find?_cons, hp, h1]
    · have h1 : ¬(f p).1 = name := by rw [hf p]; exact hp
      simp [List.find?_cons, hp, h1, ih]

theorem except_map_ok {α β ε : Type} (f : α → β) (x : α) :
    Except.map f (Except.ok (ε := ε) x) = Except.ok (f x) := rfl

/-- Closed form of `reorderForPreVertexCache` on a geometry whose index list is
entirely in range. -/
theorem reorderForPreVertexCache_eq (g : Geometry) (ind : List Nat)
    (hind : g.indexList = some ind)
    (hlt : ∀ x ∈ ind, x < computeNumberOfVertices g) :
    reorderForPreVertexCache g = Except.ok
      { g with
          attributes := g.attributes.map (fun p =>
            match p.2.values with
            | some elementsIn =>
              (p.1, { p.2 with
                      values := some (permuteValues
                        (crossRefOf (computeNumberOfVertices g) ind)
                        (computeNumberOfVertices g) p.2.componentsPerAttribute elementsIn) })
            | none => p)
          indexList := some (ind.map (firstRefRank ind)) } := by
  have hout : (outOf ind).map (fun o => (o.getD (-1)).toNat) =
      ind.map (firstRefRank ind) := by
    unfold outOf
    rw [List.map_map]
    refine List.map_congr_left (fun x _ => ?_)
    simp
  unfold reorderForPreVertexCache
  simp only [hind, reorderIndices_eq _ ind hlt, except_map_ok, hout]

/-- Example from the spec: indices `[2,2,0,1]` over 4 vertices, one
single-component attribute. -/
def preVertexCacheExample : Geometry :=
  { attributes := [("position",
      { componentDatatype := ComponentDatatype.FLOAT
        componentsPerAttribute := 1
        normalize := false
        values := some [10, 20, 30, 40] })]
    indexList := some [2, 2, 0, 1]
    primitiveType := PrimitiveType.TRIANGLES }

/-- C1: `reorderForPreVertexCache` renumbers vertices in first-reference order.
For every geometry with an in-range index list, the output index list replaces
each index by the rank of its first occurrence, and every attribute's component
block for a referenced old vertex `i` moves to the slot `firstRefRank ind i`
assigned to it.  In particular, for indices `[2,2,0,1]` over 4 vertices the
output index list is `[0,0,1,2]` and the attribute block originally at slot 2
ends up at slot 0. -/
theorem reorderForPreVertexCache_first_reference_order
    (g : Geometry) (ind : List Nat) (hind : g.indexList = some ind)
    (hlt : ∀ x ∈ ind, x < computeNumberOfVertices g) :
    (∃ g2, reorderForPreVertexCache g = Except.ok g2 ∧
      g2.indexList = some (ind.map (firstRefRank ind)) ∧
      ∀ name attr vals, attrLookup g.attributes name = some attr →
        attr.values = some vals →
        ∃ vals2,
          attrLookup g2.attributes name = some { attr with values := some vals2 } ∧
          ∀ i ∈ ind, ∀ c < attr.componentsPerAttribute,
            vals2.get? (attr.componentsPerAttribute * firstRefRank ind i + c) =
              some (vals.getD (attr.componentsPerAttribute * i + c) 0)) ∧
    reorderForPreVertexCache preVertexCacheExample = Except.ok
      { attributes := [("position",
          { componentDatatype := ComponentDatatype.FLOAT
            componentsPerAttribute := 1
            normalize := false
            values := some [30, 10, 20] })]
        indexList := some [0, 0, 1, 2]
        primitiveType := PrimitiveType.TRIANGLES } := by
  constructor
  · refine ⟨_, reorderForPreVertexCache_eq g ind hind hlt, rfl, ?_⟩
    intro name attr vals hfind hvals
    set nv := computeNumberOfVertices g with hnv
    set f : String × GeometryAttribute → String × GeometryAttribute := fun p =>
      match p.2.values with
      | some elementsIn =>
        (p.1, { p.2 with
                values := some (permuteValues (crossRefOf nv ind) nv
                  p.2.componentsPerAttribute elementsIn) })
      | none => p
      with hfdef
    have hfkey : ∀ p, (f p).1 = p.1 := by
      intro p
      rw [hfdef]
      rcases p with ⟨n1, a1⟩
      cases hv : a1.values <;> simp [hv]
    obtain ⟨p0, hp0, hp0snd⟩ := Option.map_eq_some'.mp hfind
    refine ⟨permuteValues (crossRefOf nv ind) nv attr.componentsPerAttribute vals,
      ?_, ?_⟩
    · show ((g.attributes.map f).find? (fun p => p.1 = name)).map Prod.snd = _
      rw [find?_fst_map g.attributes f hfkey name, hp0]
      have hfp0 : f p0 = (p0.1, { attr with
          values := some (permuteValues (crossRefOf nv ind) nv
            attr.componentsPerAttribute vals) }) := by
        simp only [hfdef]
        rw [hp0snd, hvals]
      rw [Option.map_some', Option.map_some', hfp0]
    · intro i hi c hc
      exact permuteValues_get? (crossRefOf nv ind) nv attr.componentsPerAttribute vals
        (crossRefOf_inj nv ind) i (hlt i hi) (firstRefRank ind i)
        (by rw [crossRefOf_getD nv ind i (hlt i hi), if_pos hi]) c hc
  · rfl

/-- Witness for C1: the theorem applied to the spec's concrete example. -/
theorem reorderForPreVertexCache_first_reference_order_witness :
    (preVertexCacheExample.indexList = some [2, 2, 0, 1] ∧
      ∀ x ∈ [2, 2, 0, 1], x < computeNumberOfVertices preVertexCacheExample) ∧
    ((∃ g2, reorderForPreVertexCache preVertexCacheExample = Except.ok g2 ∧
      g2.indexList = some ([2, 2, 0, 1].map (firstRefRank [2, 2, 0, 1])) ∧
      ∀ name attr vals, attrLookup preVertexCacheExample.attributes name = some attr →
        attr.values = some vals →
        ∃ vals2,
          attrLookup g2.attributes name = some { attr with values := some vals2 } ∧
          ∀ i ∈ [2, 2, 0, 1], ∀ c < attr.componentsPerAttribute,
            vals2.get? (attr.componentsPerAttribute * firstRefRank [2, 2, 0, 1] i + c) =
              some (vals.getD (attr.componentsPerAttribute * i + c) 0)) ∧
    reorderForPreVertexCache preVertexCacheExample = Except.ok
      { attributes := [("position",
          { componentDatatype := ComponentDatatype.FLOAT
            componentsPerAttribute := 1
            normalize := false
            values := some [30, 10, 20] })]
        indexList := some [0, 0, 1, 2]
        primitiveType := PrimitiveType.TRIANGLES }) :=
  ⟨⟨rfl, by decide⟩,
    reorderForPreVertexCache_first_reference_order preVertexCacheExample [2, 2, 0, 1]
      rfl (by decide)⟩

/-- One step of the scan always succeeds, as long as the cross-reference array
has length `numVertices` (which every reachable state has). -/
theorem reorderStep_isOk (nv : Nat) (s : ReorderState) (x : Nat)
    (hlen : s.crossRef.length = nv) :
    ∃ s2, reorderStep nv s x = Except.ok s2 ∧ s2.crossRef.length = nv := by
  unfold reorderStep
  by_cases hx : s.crossRef.get? x ≠ some (-1)
  · refine ⟨{ s with indicesOut := s.indicesOut ++ [s.crossRef.get? x] }, ?_, hlen⟩
    rw [if_pos hx]
  · push_neg at hx
    have hxlt : x < nv := by
      obtain ⟨hl, -⟩ := List.get?_eq_some.mp hx
      omega
    rw [if_neg (fun h => h hx), if_neg (by push_neg; exact_mod_cast hxlt)]
    exact ⟨_, rfl, by simpa using hlen⟩

theorem reorder_foldlM_isOk (nv : Nat) (l : List Nat) :
    ∀ s : ReorderState, s.crossRef.length = nv →
    ∃ s2, l.foldlM (reorderStep nv) s = Except.ok s2 ∧ s2.crossRef.length = nv := by
  induction l with
  | nil => intro s hs; exact ⟨s, rfl, hs⟩
  | cons x rest ih =>
    intro s hs
    obtain ⟨s1, h1, hlen1⟩ := reorderStep_isOk nv s x hs
    obtain ⟨s2, h2, hlen2⟩ := ih s1 hlen1
    refine ⟨s2, ?_, hlen2⟩
    rw [List.foldlM_cons, h1]
    exact h2

/-- C5 (code bug): `reorderForPreVertexCache` never throws — on any geometry at
all, including one whose index list references vertices at or beyond the vertex
count.  The JS read `indexCrossReferenceOldToNew[x]` for `x ≥ numVertices`
yields `undefined`, which is `!== -1`, so the branch containing the documented
`DeveloperError` is dead code; the loop silently stores the `undefined` into
the output index list instead of failing loudly as the claim requires. -/
theorem reorderForPreVertexCache_never_throws (g : Geometry) :
    ∃ g2, reorderForPreVertexCache g = Except.ok g2 := by
  unfold reorderForPreVertexCache
  cases hind : g.indexList with
  | none => exact ⟨_, rfl⟩
  | some ind =>
    obtain ⟨s2, h2, -⟩ := reorder_foldlM_isOk (computeNumberOfVertices g) ind
      { crossRef := List.replicate (computeNumberOfVertices g) (-1)
        indicesOut := []
        nextIndex := 0 } (by simp)
    have hri : reorderIndices (computeNumberOfVertices g) ind =
        Except.ok (s2.crossRef, s2.indicesOut) := by
      unfold reorderIndices
      rw [h2]
      rfl
    simp only [hri, except_map_ok]
    exact ⟨_, rfl⟩

/-! ### Idempotence of the pre-vertex-cache reorder -/

theorem nodup_map_indexOf (L : List Nat) (h : L.Nodup) :
    L.map (fun x => L.indexOf x) = List.range L.length := by
  refine List.ext_get?_iff.mpr (fun n => ?_)
  by_cases hn : n < L.length
  · rw [List.get?_eq_getElem?, List.get?_eq_getElem?, List.getElem?_map,
      List.getElem?_range hn, List.getElem?_eq_getElem hn, Option.map_some']
    have hix := List.get_indexOf h ⟨n, hn⟩
    simp only [List.get_eq_getElem] at hix
    rw [hix]
  · have h1 : L.length ≤ n := Nat.le_of_not_lt hn
    rw [List.get?_eq_none.mpr (by simpa using h1),
      List.get?_eq_none.mpr (by simpa using h1)]

theorem indexOf_range (nv i : Nat) (h : i < nv) : (List.range nv).indexOf i = i := by
  have hix := List.get_indexOf (List.nodup_range nv) ⟨i, by simpa using h⟩
  simpa using hix

/-- With every index in range and every vertex referenced, the first-occurrence
list enumerates all of `[0, nv)`, so its length is `nv`. -/
theorem firstOccur_length_full (nv : Nat) (ind : List Nat)
    (hlt : ∀ x ∈ ind, x < nv) (hall : ∀ i < nv, i ∈ ind) :
    (firstOccur ind).length = nv := by
  have hperm : List.Perm (firstOccur ind) (List.range nv) := by
    apply List.perm_of_nodup_nodup_toFinset_eq (nodup_firstOccur ind) (List.nodup_range nv)
    apply Finset.ext
    intro x
    rw [List.mem_toFinset, List.mem_toFinset, mem_firstOccur, List.mem_range]
    exact ⟨fun h => hlt x h, fun h => hall x h⟩
  simpa using hperm.length_eq

theorem firstRefRank_lt (ind : List Nat) (x : Nat) (hx : x ∈ ind) :
    firstRefRank ind x < (firstOccur ind).length :=
  List.indexOf_lt_length.mpr ((mem_firstOccur ind x).mpr hx)

theorem firstRefRank_surj (ind : List Nat) (k : Nat)
    (hk : k < (firstOccur ind).length) :
    ∃ x ∈ ind, firstRefRank ind x = k := by
  refine ⟨(firstOccur ind).get ⟨k, hk⟩,
    (mem_firstOccur _ _).mp (List.get_mem _ _ _), ?_⟩
  exact List.get_indexOf (nodup_firstOccur ind) ⟨k, hk⟩

theorem foldl_firstOccur_map (f : Nat → Nat) (L : List Nat)
    (hinj : ∀ x y, x ∈ L → y ∈ L → f x = f y → x = y) :
    ∀ (l acc : List Nat), (∀ x ∈ l, x ∈ L) → (∀ x ∈ acc, x ∈ L) →
      (l.map f).foldl (fun a x => if x ∈ a then a else a ++ [x]) (acc.map f) =
        (l.foldl (fun a x => if x ∈ a then a else a ++ [x]) acc).map f := by
  intro l
  induction l with
  | nil => intro acc _ _; rfl
  | cons x rest ih =>
    intro acc hsub hacc
    simp only [List.map_cons, List.foldl_cons]
    have hxL : x ∈ L := hsub x (List.mem_cons_self x rest)
    have hmemiff : f x ∈ acc.map f ↔ x ∈ acc := by
      constructor
      · intro hm
        obtain ⟨y, hy, hfy⟩ := List.mem_map.mp hm
        rwa [hinj y x (hacc y hy) hxL hfy] at hy
      · exact fun hm => List.mem_map_of_mem f hm
    have hsubrest : ∀ z ∈ rest, z ∈ L := fun z hz => hsub z (List.mem_cons_of_mem _ hz)
    by_cases hx : x ∈ acc
    · rw [if_pos hx, if_pos (hmemiff.mpr hx)]
      exact ih acc hsubrest hacc
    · rw [if_neg hx, if_neg (fun hm => hx (hmemiff.mp hm)),
        show acc.map f ++ [f x] = (acc ++ [x]).map f by rw [List.map_append]; rfl]
      refine ih (acc ++ [x]) hsubrest ?_
      intro z hz
      rcases List.mem_append.mp hz with h | h
      · exact hacc z h
      · rw [List.mem_singleton.mp h]
        exact hxL

theorem firstOccur_map_inj (l : List Nat) (f : Nat → Nat)
    (hinj : ∀ x y, x ∈ l → y ∈ l → f x = f y → x = y) :
    firstOccur (l.map f) = (firstOccur l).map f := by
  have h := foldl_firstOccur_map f l hinj l [] (fun x h => h) (by simp)
  simpa [firstOccur] using h

/-- Renumbering the index list by first-reference rank and scanning again gives
the identity numbering: the first occurrences of the output appear as
`0, 1, 2, …` in order. -/
theorem firstOccur_reranked (nv : Nat) (ind : List Nat)
    (hlt : ∀ x ∈ ind, x < nv) (hall : ∀ i < nv, i ∈ ind) :
    firstOccur (ind.map (firstRefRank ind)) = List.range nv := by
  rw [firstOccur_map_inj ind (firstRefRank ind) (fun x y hx hy hf =>
    (List.indexOf_inj ((mem_firstOccur ind x).mpr hx)
      ((mem_firstOccur ind y).mpr hy)).mp hf)]
  have hmap : (firstOccur ind).map (firstRefRank ind) =
      List.range (firstOccur ind).length :=
    nodup_map_indexOf (firstOccur ind) (nodup_firstOccur ind)
  rw [hmap, firstOccur_length_full nv ind hlt hall]

theorem crossRefOf_reranked (nv : Nat) (ind : List Nat)
    (hlt : ∀ x ∈ ind, x < nv) (hall : ∀ i < nv, i ∈ ind) :
    crossRefOf nv (ind.map (firstRefRank ind)) =
      (List.range nv).map (fun (i : Nat) => (i : Int)) := by
  unfold crossRefOf
  refine List.map_congr_left (fun i hi => ?_)
  have hinv : i < nv := List.mem_range.mp hi
  have himem : i ∈ ind.map (firstRefRank ind) := by
    obtain ⟨x, hx, hrx⟩ := firstRefRank_surj ind i
      (by rw [firstOccur_length_full nv ind hlt hall]; exact hinv)
    exact List.mem_map.mpr ⟨x, hx, hrx⟩
  rw [if_pos himem,
    show firstRefRank (ind.map (firstRefRank ind)) i =
      (firstOccur (ind.map (firstRefRank ind))).indexOf i from rfl,
    firstOccur_reranked nv ind hlt hall, indexOf_range nv i hinv]

theorem setsFold_len_le (L : List (Int × ℚ)) (a : JSWriteArr) (B : Nat)
    (ha : a.len ≤ B) (hL : ∀ pv ∈ L, pv.1 < (B : Int)) :
    (setsFold L a).len ≤ B := by
  induction L generalizing a with
  | nil => exact ha
  | cons x rest ih =>
    have hx := hL x (List.mem_cons_self _ _)
    refine ih (JSWriteArr.set a x.1 x.2) ?_
      (fun pv hpv => hL pv (List.mem_cons_of_mem _ hpv))
    show (if 0 ≤ x.1 then max a.len (x.1.toNat + 1) else a.len) ≤ B
    by_cases h0 : 0 ≤ x.1
    · rw [if_pos h0]
      omega
    · rwa [if_neg h0]

theorem allWrites_pos_lt (crossRef : List Int) (nv comps : Nat) (elemsIn : List ℚ)
    (hasg : ∀ i, i < nv → crossRef.getD i (-1) < (nv : Int)) :
    ∀ pv ∈ allWrites crossRef nv comps elemsIn, pv.1 < ((comps * nv : Nat) : Int) := by
  intro pv hpv
  obtain ⟨i, hi, hw⟩ := List.mem_flatMap.mp hpv
  obtain ⟨c, hclt, hp1⟩ := writeList_mem_fst crossRef comps elemsIn i pv hw
  have hilt : i < nv := List.mem_range.mp hi
  have htlt := hasg i hilt
  have h1 : crossRef.getD i (-1) ≤ (nv : Int) - 1 := by omega
  have h2 : (comps : Int) * crossRef.getD i (-1) ≤ (comps : Int) * ((nv : Int) - 1) :=
    mul_le_mul_of_nonneg_left h1 (by positivity)
  have h3 : (comps : Int) * ((nv : Int) - 1) = (comps : Int) * (nv : Int) - comps := by
    ring
  have hcc : (c : Int) < (comps : Int) := by exact_mod_cast hclt
  rw [hp1]
  push_cast
  linarith

theorem permuteValues_length (crossRef : List Int) (nv comps : Nat) (elemsIn : List ℚ)
    (hasg : ∀ i, i < nv → ∃ t : Nat, crossRef.getD i (-1) = (t : Int) ∧ t < nv)
    (hsurj : ∀ t, t < nv → ∃ i, i < nv ∧ crossRef.getD i (-1) = (t : Int))
    (hcomps : 0 < comps) :
    (permuteValues crossRef nv comps elemsIn).length = comps * nv := by
  rw [permuteValues_eq]
  unfold JSWriteArr.toList
  rw [List.length_map, List.length_range]
  rcases Nat.eq_zero_or_pos nv with h0 | hpos
  · subst h0
    show (setsFold (allWrites crossRef 0 comps elemsIn) JSWriteArr.empty).len = comps * 0
    have : allWrites crossRef 0 comps elemsIn = [] := by
      unfold allWrites
      rfl
    rw [this]
    rfl
  · apply Nat.le_antisymm
    · apply setsFold_len_le _ _ _ (Nat.zero_le _)
      apply allWrites_pos_lt
      intro i hi
      obtain ⟨t, ht, htlt⟩ := hasg i hi
      rw [ht]
      exact_mod_cast htlt
    · obtain ⟨i, hilt, hit⟩ := hsurj (nv - 1) (by omega)
      have hmem : (((comps : Int) * ((nv - 1 : Nat) : Int) + ((comps - 1 : Nat) : Int)),
          elemsIn.getD (comps * i + (comps - 1)) 0) ∈
            allWrites crossRef nv comps elemsIn := by
        apply List.mem_flatMap.mpr
        refine ⟨i, List.mem_range.mpr hilt, ?_⟩
        unfold writeList
        apply List.mem_map.mpr
        exact ⟨comps - 1, List.mem_range.mpr (by omega), by rw [hit]⟩
      have hge := setsFold_len_ge _ JSWriteArr.empty _ _ hmem (by positivity)
      have hcast : ((comps : Int) * ((nv - 1 : Nat) : Int) + ((comps - 1 : Nat) : Int)) =
          (((comps * (nv - 1) + (comps - 1) : Nat)) : Int) := by
        push_cast [Nat.cast_sub (by omega : 1 ≤ nv), Nat.cast_sub (by omega : 1 ≤ comps)]
        ring
      rw [hcast, Int.toNat_natCast] at hge
      have hmul : comps * nv = comps * (nv - 1) + comps := by
        obtain ⟨m, rfl⟩ : ∃ m, nv = m + 1 := ⟨nv - 1, by omega⟩
        rw [Nat.add_sub_cancel, Nat.mul_succ]
      omega

theorem permuteValues_ident (nv comps : Nat) (elemsIn : List ℚ) (hcomps : 0 < comps)
    (hlen : elemsIn.length = comps * nv) :
    permuteValues ((List.range nv).map (fun (i : Nat) => (i : Int))) nv comps elemsIn =
      elemsIn := by
  have hgetD : ∀ i, i < nv →
      ((List.range nv).map (fun (i : Nat) => (i : Int))).getD i (-1) = (i : Int) := by
    intro i hi
    show ((((List.range nv).map (fun (i : Nat) => (i : Int))).get? i)).getD (-1) = _
    rw [List.get?_eq_getElem?, List.getElem?_map, List.getElem?_range hi]
    rfl
  have hinj : ∀ i' j', i' < nv → j' < nv →
      0 ≤ ((List.range nv).map (fun (i : Nat) => (i : Int))).getD i' (-1) →
      ((List.range nv).map (fun (i : Nat) => (i : Int))).getD i' (-1) =
        ((List.range nv).map (fun (i : Nat) => (i : Int))).getD j' (-1) → i' = j' := by
    intro i' j' hi hj _ heq
    rw [hgetD i' hi, hgetD j' hj] at heq
    exact_mod_cast heq
  have hlength : (permuteValues ((List.range nv).map (fun (i : Nat) => (i : Int)))
      nv comps elemsIn).length = comps * nv := by
    apply permuteValues_length _ _ _ _ _ _ hcomps
    · exact fun i hi => ⟨i, hgetD i hi, hi⟩
    · exact fun t ht => ⟨t, ht, hgetD t ht⟩
  refine List.ext_get?_iff.mpr (fun n => ?_)
  by_cases hn : n < comps * nv
  · have hq : n / comps < nv := Nat.div_lt_of_lt_mul hn
    have hr : n % comps < comps := Nat.mod_lt _ hcomps
    have hget := permuteValues_get? ((List.range nv).map (fun (i : Nat) => (i : Int)))
      nv comps elemsIn hinj (n / comps) hq (n / comps) (hgetD _ hq) (n % comps) hr
    have hdec : comps * (n / comps) + n % comps = n := Nat.div_add_mod n comps
    rw [hdec] at hget
    rw [hget, List.get?_eq_getElem?,
      List.getElem?_eq_getElem (by omega : n < elemsIn.length)]
    congr 1
    rw [List.getD_eq_getElem?_getD, List.getElem?_eq_getElem (by omega : n < elemsIn.length)]
    rfl
  · rw [List.get?_eq_none.mpr (by omega : elemsIn.length ≤ n),
      List.get?_eq_none.mpr (by rw [hlength]; omega)]

theorem find?_map_of_pred {α : Type} (l : List α) (f : α → α) (q : α → Bool)
    (hq : ∀ p, q (f p) = q p) :
    (l.map f).find? q = (l.find? q).map f := by
  induction l with
  | nil => rfl
  | cons p rest ih =>
    simp only [List.map_cons, List.find?_cons, hq p]
    cases q p <;> simp [ih]

/-- C6: `reorderForPreVertexCache` is idempotent.  For a geometry with an
in-range index list in which every vertex is referenced (and positive component
counts), the first application produces `g2`, and applying the pass to `g2`
again returns `g2` itself: the identical index list and the identical attribute
value ordering. -/
theorem reorderForPreVertexCache_idempotent (g : Geometry) (ind : List Nat)
    (hind : g.indexList = some ind)
    (hlt : ∀ x ∈ ind, x < computeNumberOfVertices g)
    (hall : ∀ i, i < computeNumberOfVertices g → i ∈ ind)
    (hcomps : ∀ p ∈ g.attributes, 0 < p.2.componentsPerAttribute) :
    ∃ g2, reorderForPreVertexCache g = Except.ok g2 ∧
      reorderForPreVertexCache g2 = Except.ok g2 := by
  have hasg : ∀ i, i < computeNumberOfVertices g →
      ∃ t : Nat, (crossRefOf (computeNumberOfVertices g) ind).getD i (-1) = (t : Int) ∧
        t < computeNumberOfVertices g := by
    intro i hi
    refine ⟨firstRefRank ind i, ?_, ?_⟩
    · rw [crossRefOf_getD _ ind i hi, if_pos (hall i hi)]
    · rw [← firstOccur_length_full (computeNumberOfVertices g) ind hlt hall]
      exact firstRefRank_lt ind i (hall i hi)
  have hsurj : ∀ t, t < computeNumberOfVertices g →
      ∃ i, i < computeNumberOfVertices g ∧
        (crossRefOf (computeNumberOfVertices g) ind).getD i (-1) = (t : Int) := by
    intro t ht
    obtain ⟨x, hx, hrx⟩ := firstRefRank_surj ind t
      (by rw [firstOccur_length_full _ ind hlt hall]; exact ht)
    refine ⟨x, hlt x hx, ?_⟩
    rw [crossRefOf_getD _ ind x (hlt x hx), if_pos hx, hrx]
  refine ⟨_, reorderForPreVertexCache_eq g ind hind hlt, ?_⟩
  set nv := computeNumberOfVertices g with hnvdef
  set F : String × GeometryAttribute → String × GeometryAttribute := fun p =>
    match p.2.values with
    | some elementsIn =>
      (p.1, { p.2 with
              values := some (permuteValues (crossRefOf nv ind) nv
                p.2.componentsPerAttribute elementsIn) })
    | none => p
    with hF
  set g2 : Geometry :=
    { g with
        attributes := g.attributes.map F
        indexList := some (ind.map (firstRefRank ind)) } with hg2
  show reorderForPreVertexCache g2 = Except.ok g2
  have hFpres : ∀ p, (F p).2.values.isSome = p.2.values.isSome := by
    intro p
    rw [hF]
    rcases p with ⟨n1, a1⟩
    cases hv : a1.values <;> simp [hv]
  have hattrs2 : g2.attributes = g.attributes.map F := by rw [hg2]
  have hcnv2 : computeNumberOfVertices g2 = nv := by
    have hfind := find?_map_of_pred g.attributes F (fun p => p.2.values.isSome) hFpres
    unfold computeNumberOfVertices
    rw [hattrs2, hfind]
    cases hp0 : g.attributes.find? (fun p => p.2.values.isSome) with
    | none =>
      have h0 : computeNumberOfVertices g = 0 := by
        unfold computeNumberOfVertices
        rw [hp0]
      rw [hnvdef, h0]
      rfl
    | some p0 =>
      have hp0mem : p0 ∈ g.attributes := List.mem_of_find?_eq_some hp0
      have hp0some : p0.2.values.isSome := by simpa using List.find?_some hp0
      obtain ⟨vals0, hvals0⟩ := Option.isSome_iff_exists.mp hp0some
      have hc0 := hcomps p0 hp0mem
      rw [Option.map_some']
      rcases p0 with ⟨n0, dt0, c0, nrm0, ov0⟩
      simp only at hvals0
      subst hvals0
      simp only at hc0
      show (permuteValues (crossRefOf nv ind) nv c0 vals0).length / c0 = nv
      rw [permuteValues_length _ _ _ _ hasg hsurj hc0]
      exact Nat.mul_div_cancel_left nv hc0
  have hlt2 : ∀ x ∈ ind.map (firstRefRank ind), x < computeNumberOfVertices g2 := by
    intro x hx
    rw [hcnv2]
    obtain ⟨y, hy, hrk⟩ := List.mem_map.mp hx
    rw [← hrk, ← firstOccur_length_full nv ind hlt hall]
    exact firstRefRank_lt ind y hy
  have hind2list : g2.indexList = some (ind.map (firstRefRank ind)) := by rw [hg2]
  have hsecond := reorderForPreVertexCache_eq g2 (ind.map (firstRefRank ind))
    hind2list hlt2
  rw [hsecond]
  have hident : crossRefOf (computeNumberOfVertices g2) (ind.map (firstRefRank ind)) =
      (List.range nv).map (fun (i : Nat) => (i : Int)) := by
    rw [hcnv2]
    exact crossRefOf_reranked nv ind hlt hall
  have hattr : g2.attributes.map (fun p =>
      match p.2.values with
      | some elementsIn =>
        (p.1, { p.2 with
                values := some (permuteValues
                  (crossRefOf (computeNumberOfVertices g2) (ind.map (firstRefRank ind)))
                  (computeNumberOfVertices g2) p.2.componentsPerAttribute elementsIn) })
      | none => p) = g2.attributes := by
    rw [hattrs2, List.map_map]
    refine List.map_congr_left (fun p hp => ?_)
    have hcp := hcomps p hp
    rcases p with ⟨n1, dt1, c1, nrm1, ov1⟩
    simp only at hcp
    cases hv : ov1 with
    | none =>
      rw [hF]
      simp [hv]
    | some vals =>
      rw [hF]
      simp only [hv, Function.comp_apply]
      show (match some (permuteValues (crossRefOf nv ind) nv c1 vals) with
        | some elementsIn =>
          ((n1 : String),
            ({ componentDatatype := dt1, componentsPerAttribute := c1, normalize := nrm1,
               values := some (permuteValues
                 (crossRefOf (computeNumberOfVertices g2) (ind.map (firstRefRank ind)))
                 (computeNumberOfVertices g2) c1 elementsIn) } : GeometryAttribute))
        | none =>
          ((n1 : String),
            ({ componentDatatype := dt1, componentsPerAttribute := c1, normalize := nrm1,
               values := some (permuteValues (crossRefOf nv ind) nv c1 vals) } :
              GeometryAttribute))) =
        ((n1 : String),
          ({ componentDatatype := dt1, componentsPerAttribute := c1, normalize := nrm1,
             values := some (permuteValues (crossRefOf nv ind) nv c1 vals) } :
            GeometryAttribute))
      rw [show (match some (permuteValues (crossRefOf nv ind) nv c1 vals) with
        | some elementsIn =>
          ((n1 : String),
            ({ componentDatatype := dt1, componentsPerAttribute := c1, normalize := nrm1,
               values := some (permuteValues
                 (crossRefOf (computeNumberOfVertices g2) (ind.map (firstRefRank ind)))
                 (computeNumberOfVertices g2) c1 elementsIn) } : GeometryAttribute))
        | none =>
          ((n1 : String),
            ({ componentDatatype := dt1, componentsPerAttribute := c1, normalize := nrm1,
               values := some (permuteValues (crossRefOf nv ind) nv c1 vals) } :
              GeometryAttribute))) =
          ((n1 : String),
            ({ componentDatatype := dt1, componentsPerAttribute := c1, normalize := nrm1,
               values := some (permuteValues
                 (crossRefOf (computeNumberOfVertices g2) (ind.map (firstRefRank ind)))
                 (computeNumberOfVertices g2) c1
                 (permuteValues (crossRefOf nv ind) nv c1 vals)) } : GeometryAttribute))
        from rfl]
      rw [hident, hcnv2, permuteValues_ident nv c1 _ hcp
        (permuteValues_length _ _ _ _ hasg hsurj hcp)]
  have hind2 : (ind.map (firstRefRank ind)).map
      (firstRefRank (ind.map (firstRefRank ind))) = ind.map (firstRefRank ind) := by
    have hid : ∀ x ∈ ind.map (firstRefRank ind),
        firstRefRank (ind.map (firstRefRank ind)) x = x := by
      intro x hx
      have hxlt : x < nv := by
        have hxl := hlt2 x hx
        rwa [hcnv2] at hxl
      rw [show firstRefRank (ind.map (firstRefRank ind)) x =
        (firstOccur (ind.map (firstRefRank ind))).indexOf x from rfl,
        firstOccur_reranked nv ind hlt hall, indexOf_range nv x hxlt]
    rw [List.map_congr_left hid, List.map_id']
  rw [hattr, hind2]

/-- Example for idempotence: three vertices, all referenced. -/
def idempotenceExample : Geometry :=
  { attributes := [("position",
      { componentDatatype := ComponentDatatype.FLOAT
        componentsPerAttribute := 1
        normalize := false
        values := some [10, 20, 30] })]
    indexList := some [2, 2, 0, 1]
    primitiveType := PrimitiveType.TRIANGLES }

/-- Witness for C6: the idempotence theorem applied to a concrete geometry. -/
theorem reorderForPreVertexCache_idempotent_witness :
    (idempotenceExample.indexList = some [2, 2, 0, 1] ∧
      (∀ x ∈ [2, 2, 0, 1], x < computeNumberOfVertices idempotenceExample) ∧
      (∀ i, i < computeNumberOfVertices idempotenceExample → i ∈ [2, 2, 0, 1]) ∧
      (∀ p ∈ idempotenceExample.attributes, 0 < p.2.componentsPerAttribute)) ∧
    ∃ g2, reorderForPreVertexCache idempotenceExample = Except.ok g2 ∧
      reorderForPreVertexCache g2 = Except.ok g2 :=
  ⟨⟨rfl, by decide, by decide, by decide⟩,
    reorderForPreVertexCache_idempotent idempotenceExample [2, 2, 0, 1] rfl
      (by decide) (by decide) (by decide)⟩

/-! ### combine (`GeometryPipeline.combine`, lines 603–792) -/

/-- Schema check of `findAttributesInAllGeometries`: the attribute of the first
instance survives when every other instance (the JS loop starts at `i = 1`) has
an attribute of the same name with identical datatype, component count and
normalization flag. -/
def attrMatchesAll (instances : List GeometryInstance) (name : String)
    (attr : GeometryAttribute) : Bool :=
  (instances.drop 1).all (fun inst =>
    match attrLookup inst.geometry.attributes name with
    | some other =>
      decide (attr.componentDatatype = other.componentDatatype) &&
        decide (attr.componentsPerAttribute = other.componentsPerAttribute) &&
        decide (attr.normalize = other.normalize)
    | none => false)

/-- The combined value buffer of one surviving attribute: the source
preallocates a typed array sized to the summed per-instance lengths and fills
it sequentially (`values[k++] = sourceValues[j]`), which equals the
concatenation of the per-instance value arrays in input order.  A JS read
`attribute.values.length` on an attribute without values would crash; modelled
with `getD []` defaults (unreachable for well-formed instances). -/
def combinedAttrValues (instances : List GeometryInstance) (name : String) : List ℚ :=
  instances.foldl (fun acc inst =>
    acc ++ (((attrLookup inst.geometry.attributes name).map
      (fun a => a.values.getD [])).getD [])) []

/-- `findAttributesInAllGeometries` (lines 603–646). -/
def findAttributesInAllGeometries (instances : List GeometryInstance) :
    List (String × GeometryAttribute) :=
  match instances with
  | [] => []
  | inst0 :: _ =>
    (inst0.geometry.attributes.filter (fun p => attrMatchesAll instances p.1 p.2)).map
      (fun p => (p.1, { p.2 with values := some (combinedAttrValues instances p.1) }))

/-- The JS update `numberOfIndices[k] = defined ? (numberOfIndices[k] += n) : n`
on the count dictionary. -/
def assocBump (m : List (PrimitiveType × Nat)) (k : PrimitiveType) (n : Nat) :
    List (PrimitiveType × Nat) :=
  match m.find? (fun p => p.1 = k) with
  | some _ => m.map (fun p => if p.1 = k then (p.1, p.2 + n) else p)
  | none => m ++ [(k, n)]

/-- The per-primitive-type index-count dictionary (lines 709–717).  The source
intends one bucket per primitive type, but the loop reads the `primitiveType`
variable — which holds the FIRST instance's type — for every instance, so every
instance's index count lands in the single bucket keyed by
`instances[0].geometry.primitiveType`.  That slip is kept faithfully here. -/
def combineNumberOfIndices (instances : List GeometryInstance) :
    List (PrimitiveType × Nat) :=
  match instances with
  | [] => []
  | inst0 :: _ =>
    instances.foldl (fun m inst =>
      assocBump m inst0.geometry.primitiveType (inst.geometry.indexList.getD []).length)
      []

/-- The element modulus of the typed array chosen for a bucket: `Uint16Array`
when the total index count stays under `60 * 1024`, else `Uint32Array`
(stores wrap modulo the element width). -/
def indexWidth (num : Nat) : Nat := if num < 60 * 1024 then 65536 else 4294967296

/-- The filled per-bucket combined index buffers (lines 719–765): walk the
instances, appending each index plus the running vertex offset into the bucket
keyed (because of the same `primitiveType` slip) by the first instance's type;
after each instance the offset grows by the vertex count of that instance's
FIRST attribute (the loop over `attrs` breaks after one iteration). -/
def combineIndexBuffers (instances : List GeometryInstance) :
    List (PrimitiveType × List Nat) :=
  match instances with
  | [] => []
  | inst0 :: _ =>
    let counts := combineNumberOfIndices instances
    (instances.foldl (fun (st : List (PrimitiveType × List Nat) × Nat) inst =>
      let width := indexWidth
        (((counts.find? (fun p => p.1 = inst0.geometry.primitiveType)).map
          Prod.snd).getD 0)
      let newBuckets := st.1.map (fun b =>
        if b.1 = inst0.geometry.primitiveType then
          (b.1, b.2 ++ (inst.geometry.indexList.getD []).map
            (fun v => (st.2 + v) % width))
        else b)
      let offsetInc := match inst.geometry.attributes with
        | [] => 0
        | a :: _ => (a.2.values.getD []).length / a.2.componentsPerAttribute
      (newBuckets, st.2 + offsetInc))
      (counts.map (fun p => (p.1, ([] : List Nat))), 0)).1

/-- `GeometryPipeline.combine`: errors on an empty instance list and on
mismatched model matrices; returns the single geometry as-is for one instance;
otherwise builds the combined geometry whose index list is
`combinedIndexLists[0]`.  The bounding-sphere union is elided (see file
header). -/
def combine (instances : List GeometryInstance) : Except String Geometry :=
  match instances with
  | [] => Except.error "instances is required and must have length greater than zero."
  | inst0 :: rest =>
    if rest.isEmpty then Except.ok inst0.geometry
    else if rest.all (fun inst => decide (inst.modelMatrix = inst0.modelMatrix)) then
      Except.ok
        { attributes := findAttributesInAllGeometries (inst0 :: rest)
          indexList := some
            ((((combineIndexBuffers (inst0 :: rest)).head?).map Prod.snd).getD [])
          primitiveType := inst0.geometry.primitiveType }
    else Except.error "All instances must have the same modelMatrix."

/-- Two instances sharing one transform but with distinct primitive topologies
(TRIANGLES and LINES). -/
def mixedTypeInstances : List GeometryInstance :=
  [⟨⟨[("position", ⟨ComponentDatatype.FLOAT, 1, false, some [1, 2, 3]⟩)],
      some [0, 1, 2], PrimitiveType.TRIANGLES⟩, []⟩,
   ⟨⟨[("position", ⟨ComponentDatatype.FLOAT, 1, false, some [4, 5]⟩)],
      some [0, 1], PrimitiveType.LINES⟩, []⟩]

/-- C3 (code bug): the claim says `combine` produces a distinct combined index
buffer per primitive type.  The code instead reads the `primitiveType` variable
— the first instance's type — when bucketing every instance, so the TRIANGLES
and LINES instances land in one single buffer keyed TRIANGLES: the buffer list
has length 1 (not 2) and contains the LINES instance's offset-adjusted indices
appended after the TRIANGLES ones. -/
theorem combine_distinct_types_single_buffer :
    (combineIndexBuffers mixedTypeInstances).length = 1 ∧
    combineIndexBuffers mixedTypeInstances =
      [(PrimitiveType.TRIANGLES, [0, 1, 2, 3, 4])] ∧
    combine mixedTypeInstances = Except.ok
      { attributes := [("position",
          { componentDatatype := ComponentDatatype.FLOAT
            componentsPerAttribute := 1
            normalize := false
            values := some [1, 2, 3, 4, 5] })]
        indexList := some [0, 1, 2, 3, 4]
        primitiveType := PrimitiveType.TRIANGLES } :=
  ⟨rfl, rfl, rfl⟩

theorem mod_indexWidth_eq (num v : Nat) (h : v < 65536) : v % indexWidth num = v := by
  unfold indexWidth
  split
  · exact Nat.mod_eq_of_lt h
  · exact Nat.mod_eq_of_lt (by omega)

/-- C7: combining two instances (same transform, same primitive type) whose
geometries each hold a single identical-schema `position` attribute with 3 and
4 vertices respectively yields a combined `position` attribute whose values are
the two value arrays concatenated in input order, of length `(3+4)` times the
component count; and a combined index buffer in which every index coming from
the second instance equals its original value plus 3, the first instance's
vertex count. -/
theorem combine_two_position_instances
    (c : Nat) (hc : 0 < c) (dt : ComponentDatatype) (nrm : Bool)
    (v1 v2 : List ℚ) (h1 : v1.length = 3 * c) (h2 : v2.length = 4 * c)
    (l1 l2 : List Nat) (hl1 : ∀ x ∈ l1, x < 3) (hl2 : ∀ x ∈ l2, x < 4)
    (pt : PrimitiveType) (m : Matrix4) :
    ∃ gc, combine
        [⟨⟨[("position", ⟨dt, c, nrm, some v1⟩)], some l1, pt⟩, m⟩,
         ⟨⟨[("position", ⟨dt, c, nrm, some v2⟩)], some l2, pt⟩, m⟩] = Except.ok gc ∧
      attrLookup gc.attributes "position" = some ⟨dt, c, nrm, some (v1 ++ v2)⟩ ∧
      (v1 ++ v2).length = (3 + 4) * c ∧
      gc.indexList = some (l1 ++ l2.map (fun v => 3 + v)) := by
  have hattrs : findAttributesInAllGeometries
      [⟨⟨[("position", ⟨dt, c, nrm, some v1⟩)], some l1, pt⟩, m⟩,
       ⟨⟨[("position", ⟨dt, c, nrm, some v2⟩)], some l2, pt⟩, m⟩] =
      [("position", ⟨dt, c, nrm, some (v1 ++ v2)⟩)] := by
    unfold findAttributesInAllGeometries attrMatchesAll combinedAttrValues attrLookup
    simp
  have hcounts : combineNumberOfIndices
      [⟨⟨[("position", ⟨dt, c, nrm, some v1⟩)], some l1, pt⟩, m⟩,
       ⟨⟨[("position", ⟨dt, c, nrm, some v2⟩)], some l2, pt⟩, m⟩] =
      [(pt, l1.length + l2.length)] := by
    unfold combineNumberOfIndices assocBump
    simp
  have hbuffers : combineIndexBuffers
      [⟨⟨[("position", ⟨dt, c, nrm, some v1⟩)], some l1, pt⟩, m⟩,
       ⟨⟨[("position", ⟨dt, c, nrm, some v2⟩)], some l2, pt⟩, m⟩] =
      [(pt, l1.map (fun v => (0 + v) % indexWidth (l1.length + l2.length)) ++
        l2.map (fun v => (v1.length / c + v) % indexWidth (l1.length + l2.length)))] := by
    unfold combineIndexBuffers
    rw [hcounts]
    simp
  have hdiv : v1.length / c = 3 := by
    rw [h1]
    exact Nat.mul_div_cancel 3 hc
  have hmap1 : l1.map (fun v => (0 + v) % indexWidth (l1.length + l2.length)) = l1 := by
    have hpt : ∀ v ∈ l1, (0 + v) % indexWidth (l1.length + l2.length) = v := by
      intro v hv
      rw [Nat.zero_add, mod_indexWidth_eq _ v (by have := hl1 v hv; omega)]
    rw [List.map_congr_left hpt, List.map_id']
  have hmap2 : l2.map (fun v => (3 + v) % indexWidth (l1.length + l2.length)) =
      l2.map (fun v => 3 + v) := by
    apply List.map_congr_left
    intro v hv
    exact mod_indexWidth_eq _ _ (by have := hl2 v hv; omega)
  rw [hdiv] at hbuffers
  rw [hmap1, hmap2] at hbuffers
  refine ⟨{ attributes := [("position", ⟨dt, c, nrm, some (v1 ++ v2)⟩)]
            indexList := some (l1 ++ l2.map (fun v => 3 + v))
            primitiveType := pt }, ?_, ?_, ?_, ?_⟩
  · simp only [combine]
    rw [if_neg (by simp), if_pos (by simp), hattrs, hbuffers]
    rfl
  · unfold attrLookup
    simp
  · rw [List.length_append, h1, h2]
    ring
  · rfl

/-- Witness for C7: the theorem applied to a concrete pair of instances. -/
theorem combine_two_position_instances_witness :
    (0 < 1 ∧ ([1, 2, 3] : List ℚ).length = 3 * 1 ∧
      ([4, 5, 6, 7] : List ℚ).length = 4 * 1 ∧
      (∀ x ∈ [0, 1, 2], x < 3) ∧ (∀ x ∈ [0, 1, 2, 3], x < 4)) ∧
    ∃ gc, combine
        [⟨⟨[("position", ⟨ComponentDatatype.FLOAT, 1, false, some [1, 2, 3]⟩)],
            some [0, 1, 2], PrimitiveType.TRIANGLES⟩, []⟩,
         ⟨⟨[("position", ⟨ComponentDatatype.FLOAT, 1, false, some [4, 5, 6, 7]⟩)],
            some [0, 1, 2, 3], PrimitiveType.TRIANGLES⟩, []⟩] = Except.ok gc ∧
      attrLookup gc.attributes "position" =
        some ⟨ComponentDatatype.FLOAT, 1, false, some ([1, 2, 3] ++ [4, 5, 6, 7])⟩ ∧
      (([1, 2, 3] : List ℚ) ++ [4, 5, 6, 7]).length = (3 + 4) * 1 ∧
      gc.indexList = some ([0, 1, 2] ++ [0, 1, 2, 3].map (fun v => 3 + v)) :=
  ⟨⟨by decide, rfl, rfl, by decide, by decide⟩,
    combine_two_position_instances 1 (by decide) ComponentDatatype.FLOAT false
      [1, 2, 3] [4, 5, 6, 7] rfl rfl [0, 1, 2] [0, 1, 2, 3]
      (by decide) (by decide) PrimitiveType.TRIANGLES []⟩

/-! ### computeNormal (`GeometryPipeline.computeNormal`, lines 794–935).
`Cartesian3` lives in `Cartesian3.js`, which is not under `src/`; its vector
operations are modelled from the spec ("area-weighted (unnormalized
cross-product accumulation, then normalized) average of adjacent triangle face
normals").  Components are `ℚ`; `Math.sqrt` (used by `normalize`) has no exact
rational counterpart, so the model takes a square-root function `sq : ℚ → ℚ` as
a parameter, and theorems hold for every such function. -/

/-- Modelled from the spec: a 3-component vector (`Cartesian3.js` is not under
`src/`). -/
structure Cart3 where
  x : ℚ
  y : ℚ
  z : ℚ
deriving DecidableEq, Repr

/-- Modelled from the spec: componentwise subtraction (`Cartesian3.subtract`). -/
def Cart3.sub (a b : Cart3) : Cart3 := ⟨a.x - b.x, a.y - b.y, a.z - b.z⟩

/-- Modelled from the spec: componentwise addition (`Cartesian3.add`). -/
def Cart3.add (a b : Cart3) : Cart3 := ⟨a.x + b.x, a.y + b.y, a.z + b.z⟩

/-- Modelled from the spec: the cross product (`Cartesian3.cross`). -/
def Cart3.cross (a b : Cart3) : Cart3 :=
  ⟨a.y * b.z - a.z * b.y, a.z * b.x - a.x * b.z, a.x * b.y - a.y * b.x⟩

/-- Modelled from the spec: the dot product (`Cartesian3.dot`). -/
def Cart3.dot (a b : Cart3) : ℚ := a.x * b.x + a.y * b.y + a.z * b.z

/-- Modelled from the spec: scalar multiplication (`Cartesian3.multiplyByScalar`). -/
def Cart3.smul (q : ℚ) (a : Cart3) : Cart3 := ⟨q * a.x, q * a.y, q * a.z⟩

/-- Modelled from the spec: `Cartesian3.normalize` divides by the magnitude
`√(v·v)`; the square root is the model parameter `sq`. -/
def Cart3.normalize (sq : ℚ → ℚ) (v : Cart3) : Cart3 :=
  Cart3.smul (1 / sq (Cart3.dot v v)) v

/-- Read vertex `k` of the flat position array (`vertices[k*3 ..]`); reads are
in range whenever `k` is below the vertex count (out-of-range would be JS
`undefined`/NaN; modelled by the `getD 0` default, excluded by hypotheses). -/
def vertexAt (vs : List ℚ) (k : Nat) : Cart3 :=
  ⟨vs.getD (k * 3) 0, vs.getD (k * 3 + 1) 0, vs.getD (k * 3 + 2) 0⟩

/-- The triangle list: the index list taken three at a time (the source loop
`for (i = 0; i < numIndices; i += 3)`; the guard ensures `length % 3 = 0`). -/
def chunk3 : List Nat → List (Nat × Nat × Nat)
  | a :: b :: c :: rest => (a, b, c) :: chunk3 rest
  | _ => []

/-- One triangle's unnormalized face normal: `(v1 - v0) × (v2 - v0)`. -/
def faceNormal (vs : List ℚ) (t : Nat × Nat × Nat) : Cart3 :=
  Cart3.cross (Cart3.sub (vertexAt vs t.2.1) (vertexAt vs t.1))
    (Cart3.sub (vertexAt vs t.2.2) (vertexAt vs t.1))

/-- `normalsPerTriangle`: computed in the first source loop together with the
count increments; the two products are independent, so they are modelled as
two passes over the same triangles. -/
def normalsPerTriangle (vs : List ℚ) (ind : List Nat) : List Cart3 :=
  (chunk3 ind).map (faceNormal vs)

/-- The per-vertex reference counts (`normalsPerVertex[i].count++` for each of
the three slots of each triangle, i.e. once per entry of the index list, in
order).  The increment is modelled with `set`/`getD`; an out-of-range slot
would crash in JS and is a no-op here (excluded by hypotheses). -/
def vertexCounts (nv : Nat) (ind : List Nat) : List Nat :=
  ind.foldl (fun cs v => cs.set v (cs.getD v 0 + 1)) (List.replicate nv 0)

/-- The running prefix-sum loop that turns counts into each vertex's
`indexOffset`. -/
def vertexOffsets (counts : List Nat) : List Nat :=
  (counts.foldl (fun (st : List Nat × Nat) c => (st.1 ++ [st.2], st.2 + c)) ([], 0)).1

/-- One write of the third source loop: store triangle id `j` at the next free
slot of vertex `v`'s bucket (`normalIndices[offset + currentCount] = j;
currentCount++`). -/
def fillSlot (offs : List Nat) (j : Nat)
    (st : List (Option Nat) × List Nat) (v : Nat) : List (Option Nat) × List Nat :=
  (st.1.set (offs.getD v 0 + st.2.getD v 0) (some j),
    st.2.set v (st.2.getD v 0 + 1))

/-- The third source loop: for triangle `j` with slots `(a, b, c)`, write `j`
into the buckets of `a`, `b`, `c` in that order, then move to triangle
`j + 1`. -/
def fillTriangles (offs : List Nat) : Nat → List (Nat × Nat × Nat) →
    (List (Option Nat) × List Nat) → (List (Option Nat) × List Nat)
  | _, [], st => st
  | j, t :: rest, st =>
    fillTriangles offs (j + 1) rest
      (fillSlot offs j (fillSlot offs j (fillSlot offs j st t.1) t.2.1) t.2.2)

/-- `normalIndices`: the bucketed triangle ids (`new Array(numIndices)` with
holes modelled as `none`). -/
def normalIndices (nv : Nat) (ind : List Nat) : List (Option Nat) :=
  (fillTriangles (vertexOffsets (vertexCounts nv ind)) 0 (chunk3 ind)
    (List.replicate ind.length none, List.replicate nv 0)).1

/-- The final per-vertex loop: sum the face normals of the bucketed triangles
and normalize, or emit the default `(0,0,1)` for an unreferenced vertex. -/
def vertexNormal (sq : ℚ → ℚ) (vs : List ℚ) (nv : Nat) (ind : List Nat)
    (v : Nat) : Cart3 :=
  if 0 < (vertexCounts nv ind).getD v 0 then
    Cart3.normalize sq
      ((List.range ((vertexCounts nv ind).getD v 0)).foldl
        (fun acc j => Cart3.add acc
          ((normalsPerTriangle vs ind).getD
            (((normalIndices nv ind).getD
              ((vertexOffsets (vertexCounts nv ind)).getD v 0 + j) none).getD 0)
            ⟨0, 0, 0⟩))
        ⟨0, 0, 0⟩)
  else ⟨0, 0, 1⟩

/-- The flat array of computed normal components, vertex by vertex. -/
def computeNormalValues (sq : ℚ → ℚ) (vs : List ℚ) (ind : List Nat) : List ℚ :=
  (List.range (vs.length / 3)).flatMap (fun v =>
    [(vertexNormal sq vs (vs.length / 3) ind v).x,
     (vertexNormal sq vs (vs.length / 3) ind v).y,
     (vertexNormal sq vs (vs.length / 3) ind v).z])

/-- Attach the computed normal components: a fresh `normal` attribute when none
exists (the preallocated `new Array(numVertices*3)` is then fully written), or
an in-place overwrite of the first `3*numVertices` slots of the existing value
array (the loop writes exactly those slots, extending the array if shorter). -/
def setNormalAttr (attrs : List (String × GeometryAttribute)) (blocks : List ℚ) :
    List (String × GeometryAttribute) :=
  match attrLookup attrs "normal" with
  | none =>
    attrs ++ [("normal", ⟨ComponentDatatype.FLOAT, 3, false, some blocks⟩)]
  | some _ =>
    attrs.map (fun p =>
      if p.1 = "normal" then
        (p.1, { p.2 with
                values := some (blocks ++ (p.2.values.getD []).drop blocks.length) })
      else p)

/-- `GeometryPipeline.computeNormal`: the position attribute is validated first
(throwing on a missing/ill-shaped position even when the later applicability
checks would return the geometry unchanged); then a geometry without an index
list, with a non-TRIANGLES topology, or with an index list shorter than 2 or of
length not a multiple of 3 is returned as-is; otherwise the per-vertex normals
are computed and attached. -/
def computeNormal (sq : ℚ → ℚ) (g : Geometry) : Except String Geometry :=
  match attrLookup g.attributes "position" with
  | none => Except.error "geometry.attributes.position.values is required"
  | some posAttr =>
    match posAttr.values with
    | none => Except.error "geometry.attributes.position.values is required"
    | some vertices =>
      if posAttr.componentsPerAttribute ≠ 3 ∨ vertices.length % 3 ≠ 0 then
        Except.error "geometry.attributes.position.values.length must be a multiple of 3"
      else
        match g.indexList with
        | none => Except.ok g
        | some indices =>
          if g.primitiveType ≠ PrimitiveType.TRIANGLES ∨ indices.length < 2 ∨
              indices.length % 3 ≠ 0 then
            Except.ok g
          else
            Except.ok { g with
              attributes := setNormalAttr g.attributes
                (computeNormalValues sq vertices indices) }

/-- C10: `computeNormal` validates the position attribute before checking
applicability: whenever the position attribute is missing, lacks values, has a
component count other than 3, or has a values length that is not a multiple of
3, it throws a contract-violation error — even when the geometry's primitive
type is not TRIANGLES or it has no index list, cases that would otherwise pass
through unchanged. -/
theorem computeNormal_validates_position_first (sq : ℚ → ℚ) (g : Geometry)
    (hbad : attrLookup g.attributes "position" = none ∨
      ∃ attr, attrLookup g.attributes "position" = some attr ∧
        (attr.values = none ∨ attr.componentsPerAttribute ≠ 3 ∨
          ∃ vals, attr.values = some vals ∧ vals.length % 3 ≠ 0)) :
    ∃ e, computeNormal sq g = Except.error e := by
  unfold computeNormal
  rcases hbad with h | ⟨attr, hfind, hbad2⟩
  · rw [h]
    exact ⟨_, rfl⟩
  · simp only [hfind]
    rcases hbad2 with hv | hc | ⟨vals, hv, hl⟩
    · simp only [hv]
      exact ⟨_, rfl⟩
    · cases hv : attr.values with
      | none =>
        simp only [hv]
        exact ⟨_, rfl⟩
      | some vals =>
        simp only [hv]
        rw [if_pos (Or.inl hc)]
        exact ⟨_, rfl⟩
    · simp only [hv]
      rw [if_pos (Or.inr hl)]
      exact ⟨_, rfl⟩

/-- A POINTS geometry without an index list whose position attribute has 2
components: without the position validation it would pass through unchanged. -/
def badPositionPoints : Geometry :=
  ⟨[("position", ⟨ComponentDatatype.FLOAT, 2, false, some [0, 0]⟩)], none,
    PrimitiveType.POINTS⟩

/-- Witness for C10: the theorem applied to `badPositionPoints`. -/
theorem computeNormal_validates_position_first_witness :
    (attrLookup badPositionPoints.attributes "position" = none ∨
      ∃ attr, attrLookup badPositionPoints.attributes "position" = some attr ∧
        (attr.values = none ∨ attr.componentsPerAttribute ≠ 3 ∨
          ∃ vals, attr.values = some vals ∧ vals.length % 3 ≠ 0)) ∧
    ∃ e, computeNormal (fun q => q) badPositionPoints = Except.error e := by
  have hb : attrLookup badPositionPoints.attributes "position" = none ∨
      ∃ attr, attrLookup badPositionPoints.attributes "position" = some attr ∧
        (attr.values = none ∨ attr.componentsPerAttribute ≠ 3 ∨
          ∃ vals, attr.values = some vals ∧ vals.length % 3 ≠ 0) :=
    Or.inr ⟨⟨ComponentDatatype.FLOAT, 2, false, some [0, 0]⟩, rfl,
      Or.inr (Or.inl (by decide))⟩
  exact ⟨hb, computeNormal_validates_position_first (fun q => q) badPositionPoints hb⟩

/-! ### Correctness of the per-vertex normal accumulation (C8) -/

theorem getD_set_self {α : Type} [Inhabited α] (l : List α) (i : Nat) (a d : α)
    (h : i < l.length) : (l.set i a).getD i d = a := by
  show ((l.set i a).get? i).getD d = a
  rw [List.get?_eq_getElem?, List.getElem?_set_eq_of_lt _ (by simpa using h)]
  rfl

theorem getD_set_other {α : Type} (l : List α) (i j : Nat) (a d : α) (h : i ≠ j) :
    (l.set i a).getD j d = l.getD j d := by
  show ((l.set i a).get? j).getD d = (l.get? j).getD d
  rw [List.get?_eq_getElem?, List.get?_eq_getElem?, List.getElem?_set_ne h]

theorem counts_foldl_length (l : List Nat) (cs : List Nat) :
    (l.foldl (fun cs v => cs.set v (cs.getD v 0 + 1)) cs).length = cs.length := by
  induction l generalizing cs with
  | nil => rfl
  | cons x rest ih => rw [List.foldl_cons, ih, List.length_set]

theorem counts_foldl_getD (l : List Nat) (cs : List Nat) (v : Nat)
    (hv : v < cs.length) :
    (l.foldl (fun cs v => cs.set v (cs.getD v 0 + 1)) cs).getD v 0 =
      cs.getD v 0 + l.count v := by
  induction l generalizing cs with
  | nil => simp
  | cons x rest ih =>
    rw [List.foldl_cons, ih _ (by rw [List.length_set]; exact hv), List.count_cons]
    by_cases hxv : v = x
    · subst hxv
      rw [getD_set_self _ _ _ _ hv]
      simp
      omega
    · rw [getD_set_other _ _ _ _ _ (fun h => hxv h.symm)]
      simp [Ne.symm hxv]

theorem counts_foldl_sum (l : List Nat) (cs : List Nat)
    (hl : ∀ x ∈ l, x < cs.length) :
    (l.foldl (fun cs v => cs.set v (cs.getD v 0 + 1)) cs).sum = cs.sum + l.length := by
  induction l generalizing cs with
  | nil => simp
  | cons x rest ih =>
    have hx : x < cs.length := hl x (List.mem_cons_self x rest)
    rw [List.foldl_cons, ih _ (fun y hy => by
      rw [List.length_set]
      exact hl y (List.mem_cons_of_mem x hy))]
    have hset : (cs.set x (cs.getD x 0 + 1)).sum = cs.sum + 1 := by
      clear ih hl
      induction cs generalizing x with
      | nil => cases hx
      | cons c rest2 ih2 =>
        cases x with
        | zero => simp [List.set]; omega
        | succ n =>
          simp only [List.set, List.sum_cons]
          rw [show (c :: rest2).getD (n + 1) 0 = rest2.getD n 0 from rfl,
            ih2 n (by simpa using hx)]
          omega
    rw [hset]
    simp
    omega

theorem vertexCounts_length (nv : Nat) (ind : List Nat) :
    (vertexCounts nv ind).length = nv := by
  unfold vertexCounts
  rw [counts_foldl_length, List.length_replicate]

theorem vertexCounts_getD (nv : Nat) (ind : List Nat) (v : Nat) (hv : v < nv) :
    (vertexCounts nv ind).getD v 0 = ind.count v := by
  unfold vertexCounts
  rw [counts_foldl_getD _ _ _ (by simpa using hv)]
  simp

theorem vertexCounts_sum (nv : Nat) (ind : List Nat) (hl : ∀ x ∈ ind, x < nv) :
    (vertexCounts nv ind).sum = ind.length := by
  unfold vertexCounts
  rw [counts_foldl_sum _ _ (by simpa using hl)]
  simp

/-- The value stream of the prefix-sum scan. -/
def scanSums (s : Nat) : List Nat → List Nat
  | [] => []
  | c :: rest => s :: scanSums (s + c) rest

theorem offsets_foldl_eq (counts : List Nat) :
    ∀ (acc : List Nat) (s : Nat),
      (counts.foldl (fun (st : List Nat × Nat) c => (st.1 ++ [st.2], st.2 + c)) (acc, s)) =
        (acc ++ scanSums s counts, s + counts.sum) := by
  induction counts with
  | nil => intro acc s; simp [scanSums]
  | cons c rest ih =>
    intro acc s
    rw [List.foldl_cons, ih]
    simp [scanSums]
    omega

theorem scanSums_length (s : Nat) (counts : List Nat) :
    (scanSums s counts).length = counts.length := by
  induction counts generalizing s with
  | nil => rfl
  | cons c rest ih => simp [scanSums, ih]

theorem scanSums_getD (s : Nat) (counts : List Nat) (v : Nat) (hv : v < counts.length) :
    (scanSums s counts).getD v 0 = s + (counts.take v).sum := by
  induction counts generalizing s v with
  | nil => cases hv
  | cons c rest ih =>
    cases v with
    | zero => simp [scanSums]
    | succ n =>
      rw [show (scanSums s (c :: rest)).getD (n + 1) 0 =
        (scanSums (s + c) rest).getD n 0 from rfl,
        ih _ _ (by simpa using hv)]
      simp [List.take_succ_cons]
      omega

theorem vertexOffsets_length (counts : List Nat) :
    (vertexOffsets counts).length = counts.length := by
  unfold vertexOffsets
  rw [offsets_foldl_eq]
  simp [scanSums_length]

theorem vertexOffsets_getD (counts : List Nat) (v : Nat) (hv : v < counts.length) :
    (vertexOffsets counts).getD v 0 = (counts.take v).sum := by
  unfold vertexOffsets
  rw [offsets_foldl_eq]
  simp only [List.nil_append]
  rw [scanSums_getD _ _ _ hv]
  omega

/-- The per-slot stream of the bucket-filling loop: each triangle id paired
with each of its three slots, in processing order. -/
def slotList : Nat → List (Nat × Nat × Nat) → List (Nat × Nat)
  | _, [] => []
  | j, t :: rest => (j, t.1) :: (j, t.2.1) :: (j, t.2.2) :: slotList (j + 1) rest

theorem fillTriangles_eq_foldl (offs : List Nat) :
    ∀ (ts : List (Nat × Nat × Nat)) (j : Nat) (st : List (Option Nat) × List Nat),
      fillTriangles offs j ts st =
        (slotList j ts).foldl (fun st p => fillSlot offs p.1 st p.2) st := by
  intro ts
  induction ts with
  | nil => intro j st; rfl
  | cons t rest ih =>
    intro j st
    rw [show fillTriangles offs j (t :: rest) st = fillTriangles offs (j + 1) rest
      (fillSlot offs j (fillSlot offs j (fillSlot offs j st t.1) t.2.1) t.2.2) from rfl,
      ih]
    rfl

theorem slotList_map_snd : ∀ (ind : List Nat), ind.length % 3 = 0 → ∀ j,
    (slotList j (chunk3 ind)).map Prod.snd = ind
  | [], _, _ => rfl
  | [a], h3, _ => by simp at h3
  | [a, b], h3, _ => by simp at h3
  | a :: b :: c :: rest, h3, j => by
    have hr : rest.length % 3 = 0 := by
      simp only [List.length_cons] at h3
      omega
    rw [show chunk3 (a :: b :: c :: rest) = (a, b, c) :: chunk3 rest from rfl,
      show slotList j ((a, b, c) :: chunk3 rest) =
        (j, a) :: (j, b) :: (j, c) :: slotList (j + 1) (chunk3 rest) from rfl]
    simp only [List.map_cons]
    rw [slotList_map_snd rest hr (j + 1)]

theorem take_sum_succ (l : List Nat) (v : Nat) (hv : v < l.length) :
    (l.take (v + 1)).sum = (l.take v).sum + l.getD v 0 := by
  induction l generalizing v with
  | nil => cases hv
  | cons c rest ih =>
    cases v with
    | zero => simp
    | succ n =>
      simp only [List.take_succ_cons, List.sum_cons]
      rw [ih n (by simpa using hv)]
      rw [show (c :: rest).getD (n + 1) 0 = rest.getD n 0 from rfl]
      omega

theorem take_sum_le_sum (l : List Nat) (u : Nat) : (l.take u).sum ≤ l.sum := by
  conv_rhs => rw [← List.take_append_drop u l]
  rw [List.sum_append]
  omega

theorem take_sum_mono (l : List Nat) (u v : Nat) (huv : u ≤ v) :
    (l.take u).sum ≤ (l.take v).sum := by
  rw [show l.take u = (l.take v).take u by rw [List.take_take]; congr 1; omega]
  exact take_sum_le_sum (l.take v) u

theorem getD_append_left {α : Type} (A B : List α) (k : Nat) (d : α)
    (h : k < A.length) : (A ++ B).getD k d = A.getD k d := by
  show ((A ++ B).get? k).getD d = (A.get? k).getD d
  rw [List.get?_eq_getElem?, List.get?_eq_getElem?, List.getElem?_append,
    if_pos h]

theorem getD_append_length {α : Type} (A : List α) (b d : α) :
    (A ++ [b]).getD A.length d = b := by
  show ((A ++ [b]).get? A.length).getD d = b
  rw [List.get?_eq_getElem?, List.getElem?_append_right (Nat.le_refl _)]
  simp

theorem filter_fst_length (P : List (Nat × Nat)) (v : Nat) :
    ((P.filter (fun p => p.2 = v)).map Prod.fst).length = (P.map Prod.snd).count v := by
  induction P with
  | nil => rfl
  | cons p rest ih =>
    by_cases hp : p.2 = v
    · simp only [List.filter_cons, List.map_cons, List.count_cons]
      rw [if_pos (by simpa using hp)]
      simp only [List.map_cons, List.length_cons, ih]
      simp [hp]
    · simp only [List.filter_cons, List.map_cons, List.count_cons]
      rw [if_neg (by simpa using hp)]
      rw [ih]
      simp [hp]

theorem offs_disjoint (total offs : List Nat) (nv : Nat) (htl : total.length = nv)
    (hoffs : ∀ v, v < nv → offs.getD v 0 = (total.take v).sum)
    (u v : Nat) (hu : u < nv) (hv : v < nv) (hne : u ≠ v)
    (k1 k2 : Nat) (hk1 : k1 < total.getD u 0) (hk2 : k2 < total.getD v 0) :
    offs.getD u 0 + k1 ≠ offs.getD v 0 + k2 := by
  rcases Nat.lt_or_ge u v with h | h
  · have h1 : (total.take (u + 1)).sum ≤ (total.take v).sum := take_sum_mono total _ _ h
    have h2 : (total.take (u + 1)).sum = (total.take u).sum + total.getD u 0 :=
      take_sum_succ total u (by omega)
    rw [hoffs u hu, hoffs v hv]
    omega
  · have hvu : v < u := by omega
    have h1 : (total.take (v + 1)).sum ≤ (total.take u).sum := take_sum_mono total _ _ hvu
    have h2 : (total.take (v + 1)).sum = (total.take v).sum + total.getD v 0 :=
      take_sum_succ total v (by omega)
    rw [hoffs u hu, hoffs v hv]
    omega

theorem offs_add_count_le (total : List Nat) (v : Nat) (hv : v < total.length) :
    (total.take v).sum + total.getD v 0 ≤ total.sum := by
  rw [← take_sum_succ total v hv]
  exact take_sum_le_sum total (v + 1)

/-- Correctness of the bucket-filling loop: replaying the remaining slot
stream `R` on a state consistent with the processed prefix `P` fills, for
every vertex `v`, the bucket segment `[offs v, offs v + total v)` with exactly
the triangle ids of the slots of `v`, in order. -/
theorem fill_slots_correct (nv : Nat) (total offs : List Nat)
    (htl : total.length = nv)
    (hoffs : ∀ v, v < nv → offs.getD v 0 = (total.take v).sum) :
    ∀ (R P : List (Nat × Nat)) (arr : List (Option Nat)) (cc : List Nat),
      (∀ p ∈ R, p.2 < nv) →
      total.sum ≤ arr.length →
      cc.length = nv →
      (∀ v, v < nv → cc.getD v 0 = (P.map Prod.snd).count v) →
      (∀ v, v < nv →
        (P.map Prod.snd).count v + (R.map Prod.snd).count v = total.getD v 0) →
      (∀ v, v < nv → ∀ k, k < cc.getD v 0 →
        arr.getD (offs.getD v 0 + k) none =
          some (((P.filter (fun p => p.2 = v)).map Prod.fst).getD k 0)) →
      ∀ v, v < nv → ∀ k, k < total.getD v 0 →
        (R.foldl (fun st p => fillSlot offs p.1 st p.2) (arr, cc)).1.getD
            (offs.getD v 0 + k) none =
          some ((((P ++ R).filter (fun p => p.2 = v)).map Prod.fst).getD k 0) := by
  intro R
  induction R with
  | nil =>
    intro P arr cc hR hsum hccl hcc hcount harr v hv k hk
    rw [List.append_nil]
    refine harr v hv k ?_
    rw [hcc v hv]
    have hc := hcount v hv
    simp only [List.map_nil, List.count_nil] at hc
    omega
  | cons q R' ih =>
    intro P arr cc hR hsum hccl hcc hcount harr v hv k hk
    obtain ⟨j, v0⟩ := q
    have hv0 : v0 < nv := hR (j, v0) (List.mem_cons_self _ _)
    have hccv0 : cc.getD v0 0 = (P.map Prod.snd).count v0 := hcc v0 hv0
    have hcclt : cc.getD v0 0 < total.getD v0 0 := by
      have hc := hcount v0 hv0
      simp only [List.map_cons] at hc
      rw [List.count_cons_self] at hc
      rw [hccv0]
      omega
    have hstep : (((j, v0) :: R').foldl (fun st p => fillSlot offs p.1 st p.2) (arr, cc)) =
        R'.foldl (fun st p => fillSlot offs p.1 st p.2)
          (arr.set (offs.getD v0 0 + cc.getD v0 0) (some j),
            cc.set v0 (cc.getD v0 0 + 1)) := by
      rw [List.foldl_cons]
      rfl
    rw [hstep]
    have hposlt : offs.getD v0 0 + cc.getD v0 0 < arr.length := by
      have h1 : (total.take v0).sum + total.getD v0 0 ≤ total.sum :=
        offs_add_count_le total v0 (by omega)
      rw [hoffs v0 hv0]
      omega
    have hfl := filter_fst_length P v0
    have key := ih (P ++ [(j, v0)]) (arr.set (offs.getD v0 0 + cc.getD v0 0) (some j))
      (cc.set v0 (cc.getD v0 0 + 1))
      (fun p hp => hR p (List.mem_cons_of_mem _ hp))
      (by rw [List.length_set]; exact hsum)
      (by rw [List.length_set]; exact hccl)
      (by
        intro v' hv'
        by_cases hveq : v' = v0
        · subst hveq
          rw [getD_set_self _ _ _ _ (by omega), hccv0, List.map_append,
            List.count_append,
            show List.map Prod.snd [(j, v')] = [v'] from rfl, List.count_cons_self,
            List.count_nil]
        · rw [getD_set_other _ _ _ _ _ (fun h => hveq h.symm), hcc v' hv',
            List.map_append, List.count_append,
            show List.map Prod.snd [(j, v0)] = [v0] from rfl,
            List.count_cons_of_ne hveq, List.count_nil, Nat.add_zero])
      (by
        intro v' hv'
        have hc := hcount v' hv'
        simp only [List.map_cons] at hc
        rw [List.map_append, List.count_append,
          show List.map Prod.snd [(j, v0)] = [v0] from rfl]
        by_cases hveq : v0 = v'
        · subst hveq
          rw [List.count_cons_self] at hc
          rw [List.count_cons_self, List.count_nil]
          omega
        · rw [List.count_cons_of_ne (fun h => hveq h.symm)] at hc
          rw [List.count_cons_of_ne (fun h => hveq h.symm), List.count_nil]
          omega)
      (by
        intro v' hv' k' hk'
        by_cases hveq : v' = v0
        · subst hveq
          rw [getD_set_self _ _ _ _ (by omega)] at hk'
          have hfilter : (P ++ [(j, v')]).filter (fun p => p.2 = v') =
              P.filter (fun p => p.2 = v') ++ [(j, v')] := by
            rw [List.filter_append]
            simp
          rw [hfilter, List.map_append]
          rcases Nat.lt_or_ge k' (cc.getD v' 0) with hlt | hge
          · rw [getD_set_other _ _ _ _ _ (by omega),
              getD_append_left _ _ _ _ (by rw [hfl, ← hccv0]; exact hlt)]
            exact harr v' hv0 k' hlt
          · have hkeq : k' = cc.getD v' 0 := by omega
            subst hkeq
            rw [getD_set_self _ _ _ _ hposlt]
            rw [show List.map Prod.fst [(j, v')] = [j] from rfl]
            rw [show ((P.filter (fun p => p.2 = v')).map Prod.fst ++ [j]).getD
                (cc.getD v' 0) 0 = j from by
              rw [← hccv0] at hfl
              rw [← hfl]
              exact getD_append_length _ _ _]
        · rw [getD_set_other _ _ _ _ _ (fun h => hveq h.symm)] at hk'
          have hne : v0 ≠ v' := fun h => hveq h.symm
          have hfilter : (P ++ [(j, v0)]).filter (fun p => p.2 = v') =
              P.filter (fun p => p.2 = v') := by
            rw [List.filter_append]
            simp [hne]
          rw [hfilter]
          have hccv' : cc.getD v' 0 ≤ total.getD v' 0 := by
            have hc := hcount v' hv'
            rw [hcc v' hv']
            omega
          rw [getD_set_other _ _ _ _ _ (offs_disjoint total offs nv htl hoffs v0 v'
            hv0 hv' (fun h => hveq h.symm) (cc.getD v0 0) k' hcclt (by omega))]
          exact harr v' hv' k' hk')
      v hv k hk
    rw [List.append_assoc, List.singleton_append] at key
    exact key

theorem getD_replicate {α : Type} (n i : Nat) (a : α) :
    (List.replicate n a).getD i a = a := by
  induction n generalizing i with
  | zero => rfl
  | succ m ih =>
    cases i with
    | zero => rfl
    | succ k => exact ih k

theorem getD_map_lt {α β : Type} (f : α → β) (T : List α) (i : Nat)
    (h : i < T.length) (d : β) (d' : α) :
    (T.map f).getD i d = f (T.getD i d') := by
  show ((T.map f).get? i).getD d = f ((T.get? i).getD d')
  rw [List.get?_eq_getElem?, List.get?_eq_getElem?, List.getElem?_map,
    List.getElem?_eq_getElem h]
  rfl

theorem getD_append_right_add {α : Type} (A B : List α) (r : Nat) (d : α) :
    (A ++ B).getD (A.length + r) d = B.getD r d := by
  show ((A ++ B).get? (A.length + r)).getD d = (B.get? r).getD d
  rw [List.get?_eq_getElem?, List.getElem?_append_right (Nat.le_add_right _ _),
    Nat.add_sub_cancel_left, List.get?_eq_getElem?]

theorem foldl_range_congr {β : Type} (n : Nat) (f g : β → Nat → β)
    (h : ∀ b k, k < n → f b k = g b k) :
    ∀ z : β, (List.range n).foldl f z = (List.range n).foldl g z := by
  induction n with
  | zero => intro z; rfl
  | succ m ih =>
    intro z
    rw [List.range_succ, List.foldl_append, List.foldl_append,
      ih (fun b k hk => h b k (by omega)) z]
    simp only [List.foldl_cons, List.foldl_nil]
    rw [h _ m (by omega)]

theorem foldl_range_getD {α β : Type} (g : β → α → β) (d : α) :
    ∀ (B : List α) (z : β),
      (List.range B.length).foldl (fun acc k => g acc (B.getD k d)) z = B.foldl g z := by
  intro B
  induction B with
  | nil => intro z; rfl
  | cons x B' ih =>
    intro z
    rw [show (x :: B').length = B'.length + 1 from rfl, List.range_succ_eq_map,
      List.foldl_cons, List.foldl_map]
    rw [show (fun (acc : β) (k : Nat) => g acc ((x :: B').getD (k + 1) d)) =
      (fun acc k => g acc (B'.getD k d)) from rfl]
    exact ih (g z x)

theorem normalIndices_getD (nv : Nat) (ind : List Nat) (hmod : ind.length % 3 = 0)
    (hb : ∀ x ∈ ind, x < nv) (v : Nat) (hv : v < nv) (k : Nat)
    (hk : k < (vertexCounts nv ind).getD v 0) :
    (normalIndices nv ind).getD
        ((vertexOffsets (vertexCounts nv ind)).getD v 0 + k) none =
      some ((((slotList 0 (chunk3 ind)).filter (fun p => p.2 = v)).map
        Prod.fst).getD k 0) := by
  have hmain := fill_slots_correct nv (vertexCounts nv ind)
    (vertexOffsets (vertexCounts nv ind)) (vertexCounts_length nv ind)
    (fun u hu => vertexOffsets_getD _ u (by rw [vertexCounts_length]; exact hu))
    (slotList 0 (chunk3 ind)) [] (List.replicate ind.length none)
    (List.replicate nv 0)
    (fun p hp => by
      have hmem : p.2 ∈ (slotList 0 (chunk3 ind)).map Prod.snd :=
        List.mem_map_of_mem _ hp
      rw [slotList_map_snd ind hmod 0] at hmem
      exact hb _ hmem)
    (by
      rw [List.length_replicate, vertexCounts_sum nv ind hb])
    (List.length_replicate _ _)
    (fun u hu => by
      rw [getD_replicate]
      rfl)
    (fun u hu => by
      rw [slotList_map_snd ind hmod 0, vertexCounts_getD nv ind u hu]
      simp)
    (fun u hu k' hk' => by
      rw [getD_replicate] at hk'
      exact absurd hk' (Nat.not_lt_zero _))
    v hv k hk
  rw [List.nil_append] at hmain
  rw [show normalIndices nv ind =
    ((slotList 0 (chunk3 ind)).foldl
      (fun st p => fillSlot (vertexOffsets (vertexCounts nv ind)) p.1 st p.2)
      (List.replicate ind.length none, List.replicate nv 0)).1 from by
      rw [normalIndices, fillTriangles_eq_foldl]]
  exact hmain

/-- The face normals of the triangles adjacent to vertex `v`, one copy per
slot of the index list that references `v` (a degenerate triangle listing a
vertex twice contributes its normal twice, exactly as the source's per-slot
accumulation does). -/
def adjacentFaceNormals (vs : List ℚ) (ind : List Nat) (v : Nat) : List Cart3 :=
  (chunk3 ind).flatMap (fun t =>
    List.replicate ([t.1, t.2.1, t.2.2].count v) (faceNormal vs t))

/-- The running sum of a list of vectors, starting from the zero vector. -/
def sumNormals (L : List Cart3) : Cart3 := L.foldl Cart3.add ⟨0, 0, 0⟩

theorem slot_filter_cons (v j0 x : Nat) (L : List (Nat × Nat)) :
    ((((j0, x) :: L).filter (fun p => p.2 = v)).map Prod.fst) =
      (if x = v then [j0] else []) ++ ((L.filter (fun p => p.2 = v)).map Prod.fst) := by
  by_cases hx : x = v
  · simp [List.filter_cons, hx]
  · simp [List.filter_cons, hx]

theorem replicate_count_three (v a b c : Nat) (n : Cart3) :
    List.replicate ([a, b, c].count v) n =
      (if a = v then [n] else []) ++ ((if b = v then [n] else []) ++
        (if c = v then [n] else [])) := by
  by_cases ha : a = v <;> by_cases hb : b = v <;> by_cases hc : c = v <;>
    simp [List.count_cons, ha, hb, hc, List.replicate]

theorem map_if_singleton {α β : Type} (f : α → β) (P : Prop) [Decidable P] (x : α) :
    (if P then [x] else []).map f = if P then [f x] else [] := by
  by_cases h : P <;> simp [h]

theorem bucket_adj (vs : List ℚ) (v : Nat) :
    ∀ (T : List (Nat × Nat × Nat)) (j0 : Nat) (N : List Cart3),
      (∀ i, i < T.length → N.getD (j0 + i) ⟨0, 0, 0⟩ =
        faceNormal vs (T.getD i (0, 0, 0))) →
      (((slotList j0 T).filter (fun p => p.2 = v)).map Prod.fst).map
          (fun j => N.getD j ⟨0, 0, 0⟩) =
        T.flatMap (fun t =>
          List.replicate ([t.1, t.2.1, t.2.2].count v) (faceNormal vs t)) := by
  intro T
  induction T with
  | nil => intro j0 N hN; rfl
  | cons t rest ih =>
    intro j0 N hN
    obtain ⟨a, b, c⟩ := t
    have h0 : N.getD j0 ⟨0, 0, 0⟩ = faceNormal vs (a, b, c) := by
      have := hN 0 (by simp)
      rw [Nat.add_zero] at this
      exact this
    have hrest := ih (j0 + 1) N (fun i hi => by
      have := hN (i + 1) (by simpa using Nat.succ_lt_succ hi)
      rw [show j0 + (i + 1) = j0 + 1 + i from by omega] at this
      exact this)
    rw [show slotList j0 ((a, b, c) :: rest) =
        (j0, a) :: (j0, b) :: (j0, c) :: slotList (j0 + 1) rest from rfl,
      List.flatMap_cons, slot_filter_cons, slot_filter_cons, slot_filter_cons,
      List.map_append, List.map_append, List.map_append,
      map_if_singleton, map_if_singleton, map_if_singleton, hrest]
    simp only []
    rw [h0, replicate_count_three]
    simp [List.append_assoc]

theorem vertexNormal_eq_adjacent (sq : ℚ → ℚ) (vs : List ℚ) (nv : Nat)
    (ind : List Nat) (hmod : ind.length % 3 = 0) (hb : ∀ x ∈ ind, x < nv)
    (v : Nat) (hv : v < nv) (href : 0 < ind.count v) :
    vertexNormal sq vs nv ind v =
      Cart3.normalize sq (sumNormals (adjacentFaceNormals vs ind v)) := by
  have hcnt : (vertexCounts nv ind).getD v 0 = ind.count v :=
    vertexCounts_getD nv ind v hv
  have hBlen : ((((slotList 0 (chunk3 ind)).filter (fun p => p.2 = v)).map
      Prod.fst)).length = ind.count v := by
    rw [filter_fst_length, slotList_map_snd ind hmod 0]
  have hcong := foldl_range_congr ((vertexCounts nv ind).getD v 0)
    (fun acc j => Cart3.add acc ((normalsPerTriangle vs ind).getD
      (((normalIndices nv ind).getD
        ((vertexOffsets (vertexCounts nv ind)).getD v 0 + j) none).getD 0)
      ⟨0, 0, 0⟩))
    (fun acc j => Cart3.add acc ((normalsPerTriangle vs ind).getD
      ((((slotList 0 (chunk3 ind)).filter (fun p => p.2 = v)).map
        Prod.fst).getD j 0) ⟨0, 0, 0⟩))
    (fun acc k hk => by
      simp only []
      rw [normalIndices_getD nv ind hmod hb v hv k hk, Option.getD_some])
    ⟨0, 0, 0⟩
  simp only [vertexNormal]
  rw [if_pos (by rw [hcnt]; exact href), hcong,
    show (vertexCounts nv ind).getD v 0 =
      ((((slotList 0 (chunk3 ind)).filter (fun p => p.2 = v)).map
        Prod.fst)).length from by rw [hcnt, hBlen],
    foldl_range_getD (fun acc x => Cart3.add acc
      ((normalsPerTriangle vs ind).getD x ⟨0, 0, 0⟩)) 0]
  rw [show (((slotList 0 (chunk3 ind)).filter (fun p => p.2 = v)).map Prod.fst).foldl
      (fun acc x => Cart3.add acc ((normalsPerTriangle vs ind).getD x ⟨0, 0, 0⟩))
      ⟨0, 0, 0⟩ =
    ((((slotList 0 (chunk3 ind)).filter (fun p => p.2 = v)).map Prod.fst).map
      (fun j => (normalsPerTriangle vs ind).getD j ⟨0, 0, 0⟩)).foldl Cart3.add
      ⟨0, 0, 0⟩ from (List.foldl_map _ _ _ _).symm]
  rw [bucket_adj vs v (chunk3 ind) 0 (normalsPerTriangle vs ind)
    (fun i hi => by
      rw [Nat.zero_add]
      exact getD_map_lt (faceNormal vs) (chunk3 ind) i hi ⟨0, 0, 0⟩ (0, 0, 0))]
  rfl

theorem flatMap_three_length (F : Nat → Cart3) :
    ∀ n : Nat, ((List.range n).flatMap
      (fun u => [(F u).x, (F u).y, (F u).z])).length = n * 3 := by
  intro n
  induction n with
  | zero => rfl
  | succ m ih =>
    rw [List.range_succ, List.flatMap_append, List.length_append, ih,
      show ([m].flatMap (fun u => [(F u).x, (F u).y, (F u).z])).length = 3
        from rfl]
    omega

theorem vertexAt_append3 (A : List ℚ) (x y z : ℚ) (v : Nat) (h : A.length = v * 3) :
    vertexAt (A ++ [x, y, z]) v = ⟨x, y, z⟩ := by
  have h0 : (A ++ [x, y, z]).getD (v * 3) 0 = x := by
    rw [show v * 3 = A.length + 0 from by omega, getD_append_right_add]
    rfl
  have h1 : (A ++ [x, y, z]).getD (v * 3 + 1) 0 = y := by
    rw [show v * 3 + 1 = A.length + 1 from by omega, getD_append_right_add]
    rfl
  have h2 : (A ++ [x, y, z]).getD (v * 3 + 2) 0 = z := by
    rw [show v * 3 + 2 = A.length + 2 from by omega, getD_append_right_add]
    rfl
  simp only [vertexAt]
  rw [h0, h1, h2]

theorem vertexAt_append_left (A B : List ℚ) (v : Nat) (h : v * 3 + 3 ≤ A.length) :
    vertexAt (A ++ B) v = vertexAt A v := by
  simp only [vertexAt]
  rw [getD_append_left _ _ _ _ (by omega), getD_append_left _ _ _ _ (by omega),
    getD_append_left _ _ _ _ (by omega)]

theorem vertexAt_flatMap (F : Nat → Cart3) :
    ∀ (n v : Nat), v < n →
      vertexAt ((List.range n).flatMap
        (fun u => [(F u).x, (F u).y, (F u).z])) v = F v := by
  intro n
  induction n with
  | zero => intro v hv; omega
  | succ m ih =>
    intro v hv
    rw [List.range_succ, List.flatMap_append]
    rcases Nat.lt_or_ge v m with hlt | hge
    · rw [vertexAt_append_left _ _ _ (by rw [flatMap_three_length]; omega)]
      exact ih v hlt
    · have hveq : v = m := by omega
      subst hveq
      rw [show [v].flatMap (fun u => [(F u).x, (F u).y, (F u).z]) =
        [(F v).x, (F v).y, (F v).z] from by
          rw [List.flatMap_cons, List.flatMap_nil, List.append_nil]]
      rw [vertexAt_append3 _ _ _ _ v (flatMap_three_length F v)]

theorem computeNormalValues_vertexAt (sq : ℚ → ℚ) (vs : List ℚ) (ind : List Nat)
    (v : Nat) (hv : v < vs.length / 3) :
    vertexAt (computeNormalValues sq vs ind) v =
      vertexNormal sq vs (vs.length / 3) ind v :=
  vertexAt_flatMap (fun u => vertexNormal sq vs (vs.length / 3) ind u) _ v hv

/-- A TRIANGLES geometry holding the single counter-clockwise triangle
(0,0,0), (1,0,0), (0,1,0) with index list [0, 1, 2]. -/
def ccwTriangleGeometry : Geometry :=
  ⟨[("position", ⟨ComponentDatatype.FLOAT, 3, false,
      some [0, 0, 0, 1, 0, 0, 0, 1, 0]⟩)], some [0, 1, 2],
    PrimitiveType.TRIANGLES⟩

/-- C8: on an applicable TRIANGLES geometry, `computeNormal` attaches the
computed normal components, and each referenced vertex receives the normalized
sum of the unnormalized cross-product face normals of its adjacent triangles
(one contribution per index-list slot referencing the vertex); in particular,
for the single counter-clockwise triangle (0,0,0), (1,0,0), (0,1,0) with index
list [0, 1, 2], all three vertices receive the normal (0, 0, 1) (using any
square-root model with `sq 1 = 1`). -/
theorem computeNormal_adjacent_face_normals (sq : ℚ → ℚ) (g : Geometry)
    (pa : GeometryAttribute) (vs : List ℚ) (ind : List Nat)
    (hpos : attrLookup g.attributes "position" = some pa)
    (hpv : pa.values = some vs)
    (hcomp : pa.componentsPerAttribute = 3)
    (hlen : vs.length % 3 = 0)
    (hind : g.indexList = some ind)
    (hprim : g.primitiveType = PrimitiveType.TRIANGLES)
    (hge : 2 ≤ ind.length)
    (hmod : ind.length % 3 = 0)
    (hbound : ∀ x ∈ ind, x < vs.length / 3)
    (hsq : sq 1 = 1) :
    computeNormal sq g = Except.ok
      { g with attributes := setNormalAttr g.attributes (computeNormalValues sq vs ind) } ∧
    (∀ v, v < vs.length / 3 → 0 < ind.count v →
      vertexAt (computeNormalValues sq vs ind) v =
        Cart3.normalize sq (sumNormals (adjacentFaceNormals vs ind v))) ∧
    computeNormal sq ccwTriangleGeometry = Except.ok
      ⟨[("position", ⟨ComponentDatatype.FLOAT, 3, false,
          some [0, 0, 0, 1, 0, 0, 0, 1, 0]⟩),
        ("normal", ⟨ComponentDatatype.FLOAT, 3, false,
          some [0, 0, 1, 0, 0, 1, 0, 0, 1]⟩)], some [0, 1, 2],
        PrimitiveType.TRIANGLES⟩ := by
  refine ⟨?_, ?_, ?_⟩
  · unfold computeNormal
    simp only [hpos, hpv]
    rw [if_neg (by simp [hcomp, hlen])]
    simp only [hind]
    rw [if_neg (by simp [hprim, hmod]; omega)]
  · intro v hv href
    rw [computeNormalValues_vertexAt sq vs ind v hv]
    exact vertexNormal_eq_adjacent sq vs (vs.length / 3) ind hmod hbound v hv href
  · have hface : faceNormal [0, 0, 0, 1, 0, 0, 0, 1, 0] (0, 1, 2) =
        (⟨0, 0, 1⟩ : Cart3) := by
      rw [show faceNormal [0, 0, 0, 1, 0, 0, 0, 1, 0] (0, 1, 2) =
        Cart3.cross (Cart3.sub ⟨1, 0, 0⟩ ⟨0, 0, 0⟩)
          (Cart3.sub ⟨0, 1, 0⟩ ⟨0, 0, 0⟩) from rfl]
      norm_num [Cart3.cross, Cart3.sub]
    have hadd : Cart3.add ⟨0, 0, 0⟩ ⟨0, 0, 1⟩ = (⟨0, 0, 1⟩ : Cart3) := by
      norm_num [Cart3.add]
    have hnorm : Cart3.normalize sq ⟨0, 0, 1⟩ = (⟨0, 0, 1⟩ : Cart3) := by
      simp only [Cart3.normalize, Cart3.dot, Cart3.smul]
      norm_num [hsq]
    have hnpt : (normalsPerTriangle [0, 0, 0, 1, 0, 0, 0, 1, 0] [0, 1, 2]).getD 0
        ⟨0, 0, 0⟩ = faceNormal [0, 0, 0, 1, 0, 0, 0, 1, 0] (0, 1, 2) := rfl
    have hv3 : ∀ v, v < 3 →
        vertexNormal sq [0, 0, 0, 1, 0, 0, 0, 1, 0] 3 [0, 1, 2] v =
          (⟨0, 0, 1⟩ : Cart3) := by
      intro v hv
      interval_cases v
      · simp only [vertexNormal]
        rw [if_pos (by decide),
          show (vertexCounts 3 [0, 1, 2]).getD 0 0 = 1 from by decide,
          show List.range 1 = [0] from rfl, List.foldl_cons, List.foldl_nil]
        rw [show ((normalIndices 3 [0, 1, 2]).getD
            ((vertexOffsets (vertexCounts 3 [0, 1, 2])).getD 0 0 + 0) none).getD 0 = 0
            from by decide, hnpt, hface, hadd]
        exact hnorm
      · simp only [vertexNormal]
        rw [if_pos (by decide),
          show (vertexCounts 3 [0, 1, 2]).getD 1 0 = 1 from by decide,
          show List.range 1 = [0] from rfl, List.foldl_cons, List.foldl_nil]
        rw [show ((normalIndices 3 [0, 1, 2]).getD
            ((vertexOffsets (vertexCounts 3 [0, 1, 2])).getD 1 0 + 0) none).getD 0 = 0
            from by decide, hnpt, hface, hadd]
        exact hnorm
      · simp only [vertexNormal]
        rw [if_pos (by decide),
          show (vertexCounts 3 [0, 1, 2]).getD 2 0 = 1 from by decide,
          show List.range 1 = [0] from rfl, List.foldl_cons, List.foldl_nil]
        rw [show ((normalIndices 3 [0, 1, 2]).getD
            ((vertexOffsets (vertexCounts 3 [0, 1, 2])).getD 2 0 + 0) none).getD 0 = 0
            from by decide, hnpt, hface, hadd]
        exact hnorm
    have hvals : computeNormalValues sq [0, 0, 0, 1, 0, 0, 0, 1, 0] [0, 1, 2] =
        [0, 0, 1, 0, 0, 1, 0, 0, 1] := by
      simp only [computeNormalValues]
      rw [show (([0, 0, 0, 1, 0, 0, 0, 1, 0] : List ℚ).length / 3) = 3 from rfl,
        show List.range 3 = [0, 1, 2] from rfl]
      simp only [List.flatMap_cons, List.flatMap_nil, List.append_nil]
      rw [hv3 0 (by omega), hv3 1 (by omega), hv3 2 (by omega)]
      rfl
    have hcn : computeNormal sq ccwTriangleGeometry =
        Except.ok { ccwTriangleGeometry with
          attributes := setNormalAttr ccwTriangleGeometry.attributes
            (computeNormalValues sq [0, 0, 0, 1, 0, 0, 0, 1, 0] [0, 1, 2]) } := rfl
    rw [hcn, hvals]
    rfl

/-- Witness for C8: the theorem applied to the CCW-triangle geometry with the
identity square-root model. -/
theorem computeNormal_adjacent_face_normals_witness :
    (attrLookup ccwTriangleGeometry.attributes "position" =
        some ⟨ComponentDatatype.FLOAT, 3, false,
          some [0, 0, 0, 1, 0, 0, 0, 1, 0]⟩) ∧
    (∀ x ∈ [0, 1, 2], x < ([0, 0, 0, 1, 0, 0, 0, 1, 0] : List ℚ).length / 3) ∧
    ((fun q : ℚ => q) 1 = 1) ∧
    (computeNormal (fun q => q) ccwTriangleGeometry = Except.ok
        { ccwTriangleGeometry with attributes := setNormalAttr ccwTriangleGeometry.attributes (computeNormalValues (fun q => q) [0, 0, 0, 1, 0, 0, 0, 1, 0] [0, 1, 2]) } ∧
      (∀ v, v < ([0, 0, 0, 1, 0, 0, 0, 1, 0] : List ℚ).length / 3 →
          0 < List.count v [0, 1, 2] →
        vertexAt (computeNormalValues (fun q => q)
            [0, 0, 0, 1, 0, 0, 0, 1, 0] [0, 1, 2]) v =
          Cart3.normalize (fun q => q)
            (sumNormals (adjacentFaceNormals
              [0, 0, 0, 1, 0, 0, 0, 1, 0] [0, 1, 2] v))) ∧
      computeNormal (fun q => q) ccwTriangleGeometry = Except.ok
        ⟨[("position", ⟨ComponentDatatype.FLOAT, 3, false,
            some [0, 0, 0, 1, 0, 0, 0, 1, 0]⟩),
          ("normal", ⟨ComponentDatatype.FLOAT, 3, false,
            some [0, 0, 1, 0, 0, 1, 0, 0, 1]⟩)],
         some [0, 1, 2], PrimitiveType.TRIANGLES⟩) :=
  ⟨rfl, by decide, rfl,
    computeNormal_adjacent_face_normals (fun q => q) ccwTriangleGeometry
      ⟨ComponentDatatype.FLOAT, 3, false, some [0, 0, 0, 1, 0, 0, 0, 1, 0]⟩
      [0, 0, 0, 1, 0, 0, 0, 1, 0] [0, 1, 2] rfl rfl rfl rfl rfl rfl
      (by decide) rfl (by decide) rfl⟩

/-! ### fitToUnsignedShortIndices (`GeometryPipeline.fitToUnsignedShortIndices`,
lines 300–416) -/

/-- `copyAttributesDescriptions`: fresh attribute records with the same schema
and empty value arrays, one per source attribute that carries values. -/
def copyAttributesDescriptions (attrs : List (String × GeometryAttribute)) :
    List (String × GeometryAttribute) :=
  (attrs.filter (fun p => p.2.values.isSome)).map (fun p =>
    (p.1, { p.2 with values := some [] }))

/-- `copyVertex`: append vertex `index`'s component block of every valued
source attribute onto the like-named destination attribute (the destination
holds exactly the valued source names, so iterating the destination and
looking the name up in the source walks the same attributes as the source
loop).  An out-of-range read is JS `undefined`; modelled by the `getD 0`
default (C2 does not depend on attribute values). -/
def copyVertex (dest src : List (String × GeometryAttribute)) (index : Nat) :
    List (String × GeometryAttribute) :=
  dest.map (fun p =>
    match attrLookup src p.1 with
    | some a =>
      (p.1, { p.2 with values := some ((p.2.values.getD []) ++
        (List.range a.componentsPerAttribute).map
          (fun k => (a.values.getD []).getD (index * a.componentsPerAttribute + k) 0)) })
    | none => p)

/-- The mutable state of the splitting loop: geometries pushed so far, the
`oldToNewIndex` sparse array, the growing `newIndices`, the `currentIndex`
counter, and the value arrays being filled. -/
structure FitState where
  geoms : List Geometry
  oldToNew : Nat → Option Nat
  newIndices : List Nat
  currentIndex : Nat
  newAttributes : List (String × GeometryAttribute)

/-- The body of the inner `k` loop: look up the slot's old index; if
unassigned, assign the next sequential new index and copy the vertex; always
push the (possibly just-assigned) new index. -/
def processSlot (src : List (String × GeometryAttribute)) (st : FitState)
    (x : Nat) : FitState :=
  match st.oldToNew x with
  | some i => { st with newIndices := st.newIndices ++ [i] }
  | none =>
    { st with
      oldToNew := fun y => if y = x then some st.currentIndex else st.oldToNew y,
      newIndices := st.newIndices ++ [st.currentIndex],
      currentIndex := st.currentIndex + 1,
      newAttributes := copyVertex st.newAttributes src x }

/-- The end-of-primitive check: when `currentIndex + indicesPerPrimitive`
exceeds 64K, push the accumulated geometry and reset for the next one. -/
def sealCheck (g : Geometry) (ipp : Nat) (st : FitState) : FitState :=
  if 64 * 1024 < st.currentIndex + ipp then
    { geoms := st.geoms ++
        [⟨st.newAttributes, some st.newIndices, g.primitiveType⟩],
      oldToNew := fun _ => none,
      newIndices := [],
      currentIndex := 0,
      newAttributes := copyAttributesDescriptions g.attributes }
  else st

/-- The outer `j` loop: process one primitive (`indicesPerPrimitive` slots,
a trailing shorter group processed as-is; in JS its missing slots read
`undefined`, which cannot occur for the well-formed index lists hypothesised
below), then run the end-of-primitive check. -/
def fitLoop (g : Geometry) (ipp : Nat) : List Nat → FitState → FitState
  | [], st => st
  | x :: rest, st =>
    fitLoop g ipp (rest.drop (ipp - 1))
      (sealCheck g ipp
        ((x :: rest.take (ipp - 1)).foldl (processSlot g.attributes) st))
termination_by l _ => l.length
decreasing_by
  simp only [List.length_drop, List.length_cons]
  omega

/-- `GeometryPipeline.fitToUnsignedShortIndices`: throw when an indexed
geometry's topology is not TRIANGLES, LINES or POINTS; split when there is an
index list and more than 64K vertices; otherwise return the geometry alone. -/
def fitToUnsignedShortIndices (g : Geometry) : Except String (List Geometry) :=
  if g.indexList.isSome ∧ g.primitiveType ≠ PrimitiveType.TRIANGLES ∧
      g.primitiveType ≠ PrimitiveType.LINES ∧
      g.primitiveType ≠ PrimitiveType.POINTS then
    Except.error "geometry.primitiveType must equal to PrimitiveType.TRIANGLES, PrimitiveType.LINES, or PrimitiveType.POINTS."
  else
    match g.indexList with
    | some ind =>
      if 64 * 1024 < computeNumberOfVertices g then
        let ipp : Nat := match g.primitiveType with
          | PrimitiveType.TRIANGLES => 3
          | PrimitiveType.LINES => 2
          | _ => 1
        let final := fitLoop g ipp ind
          ⟨[], fun _ => none, [], 0, copyAttributesDescriptions g.attributes⟩
        Except.ok (if final.newIndices.length ≠ 0 then
          final.geoms ++
            [⟨final.newAttributes, some final.newIndices, g.primitiveType⟩]
        else final.geoms)
      else Except.ok [g]
    | none => Except.ok [g]

/-- The loop invariant of the splitting pass over processed prefix `p`:
the assigned old-vertex set tracks `currentIndex` and stays inside `p`, the
distinct vertices of `p` are covered by 64K per pushed geometry plus the
current counter, every pushed index and every stored mapping is below the
counter, pushed geometries only hold indices below 64K, and the counter never
exceeds the number of emitted indices. -/
def FitInv (p : List Nat) (st : FitState) : Prop :=
  (∃ S : Finset Nat, (∀ x, (st.oldToNew x).isSome ↔ x ∈ S) ∧
      S.card = st.currentIndex ∧ ∀ x ∈ S, x ∈ p) ∧
  p.toFinset.card ≤ 64 * 1024 * st.geoms.length + st.currentIndex ∧
  (∀ g' ∈ st.geoms, ∀ i ∈ g'.indexList.getD [], i < 64 * 1024) ∧
  (∀ i ∈ st.newIndices, i < st.currentIndex) ∧
  (∀ x i, st.oldToNew x = some i → i < st.currentIndex) ∧
  st.currentIndex ≤ st.newIndices.length

theorem processSlot_inv (src : List (String × GeometryAttribute))
    (p : List Nat) (st : FitState) (x : Nat) (h : FitInv p st) :
    FitInv (p ++ [x]) (processSlot src st x) ∧
    (processSlot src st x).currentIndex ≤ st.currentIndex + 1 ∧
    (processSlot src st x).geoms = st.geoms := by
  obtain ⟨⟨S, hS, hScard, hSsub⟩, hc, hg, hni, hrange, hlen⟩ := h
  cases hx : st.oldToNew x with
  | some i =>
    have hst : processSlot src st x =
        { st with newIndices := st.newIndices ++ [i] } := by
      simp only [processSlot, hx]
    rw [hst]
    have hxp : x ∈ p := hSsub x ((hS x).mp (by rw [hx]; rfl))
    have htf : (p ++ [x]).toFinset = p.toFinset := by
      rw [List.toFinset_append]
      simp [List.mem_toFinset.mpr hxp]
    refine ⟨⟨⟨S, hS, hScard, fun y hy => List.mem_append_left _ (hSsub y hy)⟩,
      ?_, hg, ?_, hrange, ?_⟩, by show st.currentIndex ≤ st.currentIndex + 1; omega,
      rfl⟩
    · show (p ++ [x]).toFinset.card ≤ 64 * 1024 * st.geoms.length + st.currentIndex
      rw [htf]
      exact hc
    · intro j hj
      rcases List.mem_append.mp hj with hj | hj
      · exact hni j hj
      · rw [List.mem_singleton.mp hj]
        exact hrange x i hx
    · show st.currentIndex ≤ (st.newIndices ++ [i]).length
      simp only [List.length_append, List.length_cons, List.length_nil]
      omega
  | none =>
    have hst : processSlot src st x = { st with
        oldToNew := fun y => if y = x then some st.currentIndex else st.oldToNew y,
        newIndices := st.newIndices ++ [st.currentIndex],
        currentIndex := st.currentIndex + 1,
        newAttributes := copyVertex st.newAttributes src x } := by
      simp only [processSlot, hx]
    rw [hst]
    have hxS : x ∉ S := fun hmem => by
      have h2 := (hS x).mpr hmem
      rw [hx] at h2
      exact absurd h2 (by simp)
    refine ⟨⟨⟨insert x S, ?_, ?_, ?_⟩, ?_, hg, ?_, ?_, ?_⟩,
      by show st.currentIndex + 1 ≤ st.currentIndex + 1; omega, rfl⟩
    · intro y
      show (if y = x then some st.currentIndex else st.oldToNew y).isSome ↔
        y ∈ insert x S
      by_cases hy : y = x
      · subst hy
        simp
      · rw [if_neg hy]
        rw [Finset.mem_insert]
        rw [hS y]
        exact ⟨fun hm => Or.inr hm, fun hm => hm.resolve_left hy⟩
    · show (insert x S).card = st.currentIndex + 1
      rw [Finset.card_insert_of_not_mem hxS, hScard]
    · intro y hy
      rcases Finset.mem_insert.mp hy with hy | hy
      · subst hy
        exact List.mem_append_right _ (List.mem_singleton.mpr rfl)
      · exact List.mem_append_left _ (hSsub y hy)
    · show (p ++ [x]).toFinset.card ≤
        64 * 1024 * st.geoms.length + (st.currentIndex + 1)
      have hle : (p ++ [x]).toFinset.card ≤ p.toFinset.card + 1 := by
        rw [List.toFinset_append]
        simp only [List.toFinset_cons, List.toFinset_nil]
        calc (p.toFinset ∪ insert x ∅).card ≤ (insert x p.toFinset).card := by
              apply Finset.card_le_card
              intro y hy
              rcases Finset.mem_union.mp hy with hy | hy
              · exact Finset.mem_insert_of_mem hy
              · simp at hy
                simp [hy]
          _ ≤ p.toFinset.card + 1 := Finset.card_insert_le _ _
      omega
    · intro j hj
      show j < st.currentIndex + 1
      rcases List.mem_append.mp hj with hj | hj
      · have := hni j hj
        omega
      · rw [List.mem_singleton.mp hj]
        omega
    · intro y i hy
      simp only [] at hy
      show i < st.currentIndex + 1
      by_cases hyx : y = x
      · rw [if_pos hyx] at hy
        have h2 : st.currentIndex = i := Option.some.inj hy
        omega
      · rw [if_neg hyx] at hy
        have := hrange y i hy
        omega
    · show st.currentIndex + 1 ≤ (st.newIndices ++ [st.currentIndex]).length
      simp only [List.length_append, List.length_cons, List.length_nil]
      omega

theorem foldl_processSlot_inv (src : List (String × GeometryAttribute)) :
    ∀ (L p : List Nat) (st : FitState), FitInv p st →
      FitInv (p ++ L) (L.foldl (processSlot src) st) ∧
      (L.foldl (processSlot src) st).currentIndex ≤ st.currentIndex + L.length ∧
      (L.foldl (processSlot src) st).geoms = st.geoms := by
  intro L
  induction L with
  | nil =>
    intro p st h
    rw [List.append_nil]
    exact ⟨h, by simp, rfl⟩
  | cons x rest ih =>
    intro p st h
    obtain ⟨h1, h2, h3⟩ := processSlot_inv src p st x h
    obtain ⟨h4, h5, h6⟩ := ih (p ++ [x]) (processSlot src st x) h1
    rw [List.append_assoc, List.singleton_append] at h4
    refine ⟨h4, ?_, ?_⟩
    · rw [List.foldl_cons]
      simp only [List.length_cons]
      omega
    · rw [List.foldl_cons, h6, h3]

theorem sealCheck_inv (g : Geometry) (p : List Nat) (st : FitState)
    (h : FitInv p st) (hci : st.currentIndex ≤ 64 * 1024) :
    FitInv p (sealCheck g 3 st) ∧
    (sealCheck g 3 st).currentIndex + 3 ≤ 64 * 1024 := by
  obtain ⟨⟨S, hS, hScard, hSsub⟩, hc, hg, hni, hrange, hlen⟩ := h
  unfold sealCheck
  by_cases hfi : 64 * 1024 < st.currentIndex + 3
  · rw [if_pos hfi]
    refine ⟨⟨⟨∅, ?_, ?_, ?_⟩, ?_, ?_, ?_, ?_, ?_⟩, ?_⟩
    · intro y
      simp
    · show (∅ : Finset Nat).card = (0 : Nat)
      simp
    · intro y hy
      exact absurd hy (Finset.not_mem_empty y)
    · show p.toFinset.card ≤ 64 * 1024 *
        (st.geoms ++ [(⟨st.newAttributes, some st.newIndices,
          g.primitiveType⟩ : Geometry)]).length + 0
      rw [List.length_append]
      simp only [List.length_cons, List.length_nil]
      have hmul : 64 * 1024 * (st.geoms.length + (0 + 1)) =
          64 * 1024 * st.geoms.length + 64 * 1024 := by ring
      omega
    · intro g' hg'
      rcases List.mem_append.mp hg' with hg' | hg'
      · exact hg g' hg'
      · rw [List.mem_singleton.mp hg']
        intro i hi
        simp only [Option.getD_some] at hi
        have := hni i hi
        omega
    · intro i hi
      exact absurd hi (List.not_mem_nil i)
    · intro y i hy
      exact absurd hy (by simp)
    · show (0 : Nat) ≤ ([] : List Nat).length
      simp
    · show (0 : Nat) + 3 ≤ 64 * 1024
      omega
  · rw [if_neg hfi]
    exact ⟨⟨⟨S, hS, hScard, hSsub⟩, hc, hg, hni, hrange, hlen⟩, by omega⟩

theorem fitLoop_nil (g : Geometry) (ipp : Nat) (st : FitState) :
    fitLoop g ipp [] st = st := by
  rw [fitLoop]

theorem fitLoop_cons (g : Geometry) (ipp : Nat) (x : Nat) (rest : List Nat)
    (st : FitState) :
    fitLoop g ipp (x :: rest) st =
      fitLoop g ipp (rest.drop (ipp - 1))
        (sealCheck g ipp
          ((x :: rest.take (ipp - 1)).foldl (processSlot g.attributes) st)) := by
  rw [fitLoop]

theorem fitLoop_inv (g : Geometry) :
    ∀ (n : Nat) (l p : List Nat) (st : FitState), l.length ≤ n →
      FitInv p st → st.currentIndex + 3 ≤ 64 * 1024 →
      FitInv (p ++ l) (fitLoop g 3 l st) ∧
      (fitLoop g 3 l st).currentIndex + 3 ≤ 64 * 1024 := by
  intro n
  induction n with
  | zero =>
    intro l p st hln h hci
    have hl : l = [] := List.eq_nil_of_length_eq_zero (by omega)
    subst hl
    rw [fitLoop_nil, List.append_nil]
    exact ⟨h, hci⟩
  | succ m ih =>
    intro l p st hln h hci
    cases l with
    | nil =>
      rw [fitLoop_nil, List.append_nil]
      exact ⟨h, hci⟩
    | cons x rest =>
      rw [fitLoop_cons]
      obtain ⟨h1, h2, h3⟩ := foldl_processSlot_inv g.attributes
        (x :: rest.take (3 - 1)) p st h
      have hchunklen : (x :: rest.take (3 - 1)).length ≤ 3 := by
        simp only [List.length_cons, List.length_take]
        omega
      have hc1 : ((x :: rest.take (3 - 1)).foldl
          (processSlot g.attributes) st).currentIndex ≤ 64 * 1024 := by
        omega
      obtain ⟨h4, h5⟩ := sealCheck_inv g (p ++ (x :: rest.take (3 - 1)))
        ((x :: rest.take (3 - 1)).foldl (processSlot g.attributes) st) h1 hc1
      have hdroplen : (rest.drop (3 - 1)).length ≤ m := by
        simp only [List.length_drop, List.length_cons] at *
        omega
      obtain ⟨h6, h7⟩ := ih (rest.drop (3 - 1)) (p ++ (x :: rest.take (3 - 1)))
        (sealCheck g 3 ((x :: rest.take (3 - 1)).foldl
          (processSlot g.attributes) st)) hdroplen h4 h5
      rw [List.append_assoc] at h6
      rw [show (x :: rest.take (3 - 1)) ++ rest.drop (3 - 1) = x :: rest from by
        rw [List.cons_append, List.take_append_drop]] at h6
      exact ⟨h6, h7⟩

/-- C2: a TRIANGLES geometry whose index list references more than 64K
distinct vertices splits into at least two geometries, each of whose index
lists holds only values below 64K. -/
theorem fitToUnsignedShortIndices_splits (g : Geometry) (ind : List Nat)
    (hind : g.indexList = some ind)
    (hprim : g.primitiveType = PrimitiveType.TRIANGLES)
    (hmod : ind.length % 3 = 0)
    (hcard : 64 * 1024 < ind.toFinset.card)
    (hbound : ∀ x ∈ ind, x < computeNumberOfVertices g) :
    ∃ out, fitToUnsignedShortIndices g = Except.ok out ∧ 2 ≤ out.length ∧
      ∀ g' ∈ out, ∀ i ∈ g'.indexList.getD [], i < 64 * 1024 := by
  have hnv : 64 * 1024 < computeNumberOfVertices g := by
    have hsub : ind.toFinset ⊆ Finset.range (computeNumberOfVertices g) := by
      intro y hy
      rw [Finset.mem_range]
      exact hbound y (List.mem_toFinset.mp hy)
    have hle := Finset.card_le_card hsub
    rw [Finset.card_range] at hle
    omega
  have hinv0 : FitInv []
      (⟨[], fun _ => none, [], 0, copyAttributesDescriptions g.attributes⟩ :
        FitState) := by
    refine ⟨⟨∅, ?_, ?_, ?_⟩, ?_, ?_, ?_, ?_, ?_⟩
    · intro y
      simp
    · show (∅ : Finset Nat).card = (0 : Nat)
      simp
    · intro y hy
      exact absurd hy (Finset.not_mem_empty y)
    · simp
    · intro g' hg'
      exact absurd hg' (List.not_mem_nil g')
    · intro i hi
      exact absurd hi (List.not_mem_nil i)
    · intro y i hy
      exact absurd hy (by simp)
    · show (0 : Nat) ≤ ([] : List Nat).length
      simp
  obtain ⟨hinv, hfci⟩ := fitLoop_inv g ind.length ind []
    (⟨[], fun _ => none, [], 0, copyAttributesDescriptions g.attributes⟩ :
      FitState) (le_refl _) hinv0 (by show (0 : Nat) + 3 ≤ 64 * 1024; omega)
  rw [List.nil_append] at hinv
  obtain ⟨⟨S, hS, hScard, hSsub⟩, hc, hgs, hni, hrange, hlen⟩ := hinv
  unfold fitToUnsignedShortIndices
  rw [if_neg (by simp [hprim])]
  simp only [hind, hprim]
  rw [if_pos hnv]
  by_cases hne : (fitLoop g 3 ind
      (⟨[], fun _ => none, [], 0, copyAttributesDescriptions g.attributes⟩ :
        FitState)).newIndices.length ≠ 0
  · rw [if_pos hne]
    refine ⟨_, rfl, ?_, ?_⟩
    · rw [List.length_append]
      simp only [List.length_cons, List.length_nil]
      omega
    · intro g' hg'
      rcases List.mem_append.mp hg' with hg' | hg'
      · exact hgs g' hg'
      · rw [List.mem_singleton.mp hg']
        intro i hi
        simp only [Option.getD_some] at hi
        have := hni i hi
        omega
  · rw [if_neg hne]
    refine ⟨_, rfl, ?_, hgs⟩
    push_neg at hne
    have hci0 : (fitLoop g 3 ind
        (⟨[], fun _ => none, [], 0, copyAttributesDescriptions g.attributes⟩ :
          FitState)).currentIndex = 0 := by
      omega
    rw [hci0] at hc
    omega

/-- A TRIANGLES geometry with 70002 vertices (one 1-component attribute) whose
index list references every vertex once. -/
def bigIndexedGeometry : Geometry :=
  ⟨[("position", ⟨ComponentDatatype.FLOAT, 1, false,
      some (List.replicate 70002 0)⟩)],
    some (List.range 70002), PrimitiveType.TRIANGLES⟩

/-- Witness for C2: the theorem applied to the 70002-vertex geometry. -/
theorem fitToUnsignedShortIndices_splits_witness :
    bigIndexedGeometry.indexList = some (List.range 70002) ∧
    bigIndexedGeometry.primitiveType = PrimitiveType.TRIANGLES ∧
    (List.range 70002).length % 3 = 0 ∧
    64 * 1024 < (List.range 70002).toFinset.card ∧
    (∀ x ∈ List.range 70002, x < computeNumberOfVertices bigIndexedGeometry) ∧
    ∃ out, fitToUnsignedShortIndices bigIndexedGeometry = Except.ok out ∧
      2 ≤ out.length ∧ ∀ g' ∈ out, ∀ i ∈ g'.indexList.getD [], i < 64 * 1024 := by
  have hmod : (List.range 70002).length % 3 = 0 := by
    rw [List.length_range]
  have hcard : 64 * 1024 < (List.range 70002).toFinset.card := by
    rw [List.toFinset_card_of_nodup (List.nodup_range 70002), List.length_range]
    omega
  have hbound : ∀ x ∈ List.range 70002,
      x < computeNumberOfVertices bigIndexedGeometry := by
    have hone : ∀ (name : String) (cd : ComponentDatatype) (comps : Nat)
        (nrm : Bool) (vals : List ℚ) (il : Option (List Nat))
        (pt : PrimitiveType),
        computeNumberOfVertices ⟨[(name, ⟨cd, comps, nrm, some vals⟩)], il, pt⟩ =
          vals.length / comps := fun _ _ _ _ _ _ _ => rfl
    have hnum : computeNumberOfVertices bigIndexedGeometry = 70002 := by
      show computeNumberOfVertices ⟨[("position", ⟨ComponentDatatype.FLOAT, 1,
        false, some (List.replicate 70002 0)⟩)], some (List.range 70002),
        PrimitiveType.TRIANGLES⟩ = 70002
      rw [hone, List.length_replicate, Nat.div_one]
    intro x hx
    rw [hnum]
    exact List.mem_range.mp hx
  exact ⟨rfl, rfl, hmod, hcard, hbound,
    fitToUnsignedShortIndices_splits bigIndexedGeometry (List.range 70002)
      rfl rfl hmod hcard hbound⟩
